import Mathlib

/-
Shallow embedding of the forest-construction core of the repository
(src/api/rest/task.rs): the data model (`Task`, `TaskTree`) and the
algorithm `TaskTree::from_tasks`, which partitions task records into
roots and parent-bearing candidates, repeatedly attaches candidates
to already-known parents through a bounded retry queue, and finally
converts the shared intermediate builder cells into plain trees.

Modelling conventions:
- `u64` identifiers become `Nat` (only compared for equality, never
  overflowed); `isize` becomes `Int`; `chrono` timestamps become `Int`.
- The `Rc<RefCell<TaskTreeBuilder>>` cells become an explicit heap,
  a `List Cell` indexed by allocation order (= input position); the
  `HashMap<TaskID, Rc<...>>` becomes an association list from task id
  to heap index (insertion replaces the value of an existing key and
  otherwise appends, like `HashMap::insert`); the `VecDeque` becomes a
  `List Nat` of heap indices used FIFO.
- Panicking operations (`unwrap`, `expect`, a failed `Rc::try_unwrap`)
  are modelled by `Option`/the `BuildResult.crash` constructor.
- The `while` loop runs on fuel (`runLoop`); `from_tasks` supplies a
  fuel that is proved sufficient, and the bounded recursion of
  `TaskTreeBuilder::finalize` runs on fuel `heap.length + 1`.
- The only behaviour of the original that is not deterministic is the
  iteration order of the final `HashMap` when roots are collected;
  `from_tasksWith` exposes that order as a parameter (an arbitrary
  permutation of the table), `from_tasks` fixes insertion order.
-/

namespace Doist

/-- Priority as is given from the todoist API (`Priority` in task.rs). -/
inductive Priority where
  | Normal
  | High
  | VeryHigh
  | Urgent
deriving DecidableEq

/-- ExactTime exists in DueDate if this is an exact DueDate (task.rs). -/
structure ExactTime where
  datetime : Int
  timezone : String
deriving DecidableEq

/-- DueDate is the Due object from the todoist API (task.rs). -/
structure DueDate where
  human_readable : String
  date : String
  recurring : Bool
  exact : Option ExactTime
deriving DecidableEq

/-- Task describes a Task from the todoist API (struct `Task` in task.rs). -/
structure Task where
  id : Nat
  project_id : Nat
  section_id : Option Nat
  content : String
  description : String
  completed : Bool
  label_ids : List Nat
  parent_id : Option Nat
  order : Int
  priority : Priority
  due : Option DueDate
  url : String
  comment_count : Nat
  assignee : Option Nat
  assigner : Option Nat
  created : Int
deriving DecidableEq

/-- The output tree: a task together with its subtrees (struct `TaskTree`). -/
inductive TaskTree where
  | mk : Task → List TaskTree → TaskTree

/-- The task stored at the root node of a tree. -/
def TaskTree.task : TaskTree → Task
  | .mk t _ => t

/-- The subtrees of the root node of a tree. -/
def TaskTree.subtasks : TaskTree → List TaskTree
  | .mk _ s => s

mutual

/-- All task records stored in a tree, root first. -/
def treeTasks : TaskTree → List Task
  | .mk t subs => t :: treeTasksF subs

/-- All task records stored in a forest, in tree order. -/
def treeTasksF : List TaskTree → List Task
  | [] => []
  | t :: ts => treeTasks t ++ treeTasksF ts

end

/-- Intermediate builder node (struct `TaskTreeBuilder`): the task, the
marker set once the node has been attached as a child, and the list of
children, stored as heap indices standing for the `Rc` pointers. -/
structure Cell where
  task : Task
  parent : Option Unit
  subtasks : List Nat
deriving DecidableEq

/-- The state of the construction loop in `from_tasks`: the heap of
builder cells (one per input record, indexed by input position), the
`tasks` lookup table (association list task id ↦ heap index), the
candidate queue (`subtasks` in the source) and the miss counter
(`fails` in the source). -/
structure BState where
  heap : List Cell
  table : List (Nat × Nat)
  queue : List Nat
  fails : Nat
deriving DecidableEq

/-- Key lookup in the association list modelling the `HashMap`. -/
def lookupA (l : List (Nat × Nat)) (k : Nat) : Option Nat :=
  (l.find? (fun p => p.1 == k)).map (·.2)

/-- `HashMap::insert`: replace the value of an existing key, otherwise
add the binding (appended, recording insertion order). -/
def insertA (l : List (Nat × Nat)) (k v : Nat) : List (Nat × Nat) :=
  if (l.find? (fun p => p.1 == k)).isSome then
    l.map (fun p => if p.1 == k then (k, v) else p)
  else l ++ [(k, v)]

/-- The `(task.id, heap index)` pairs of the records with no parent,
in input order, starting at heap index `off`: the `top_level_tasks`
partition of `from_tasks`. -/
def rootEntries : List Task → Nat → List (Nat × Nat)
  | [], _ => []
  | t :: ts, off =>
    (if t.parent_id.isNone then [(t.id, off)] else []) ++ rootEntries ts (off + 1)

/-- The heap indices of the records that do have a parent, in input
order, starting at heap index `off`: the `subtasks` partition. -/
def candIdxs : List Task → Nat → List Nat
  | [], _ => []
  | t :: ts, off =>
    (if t.parent_id.isSome then [off] else []) ++ candIdxs ts (off + 1)

/-- The state of `from_tasks` just before the retry loop: every record
wrapped in a fresh builder cell, the table seeded with the root records
only, the queue holding the parent-bearing candidates, `fails = 0`. -/
def initState (tasks : List Task) : BState :=
  { heap := tasks.map (fun t => { task := t, parent := none, subtasks := [] })
  , table := (rootEntries tasks 0).foldl (fun tb e => insertA tb e.1 e.2) []
  , queue := candIdxs tasks 0
  , fails := 0 }

/-- The loop guard of `from_tasks`:
`while !subtasks.is_empty() && fails <= subtasks.len()`. -/
def guardB (s : BState) : Bool :=
  !s.queue.isEmpty && decide (s.fails ≤ s.queue.length)

/-- One iteration of the retry loop of `from_tasks`, assuming the guard
holds. `none` models a panic: `pop_front().unwrap()` on an empty queue,
`parent_id.unwrap()` on a parentless candidate, or a dangling heap
index (which cannot occur). On a failed parent lookup the candidate is
re-enqueued at the back and the miss counter is incremented; on success
the counter resets, the candidate is marked attached, pushed onto the
parent's children and inserted into the table under its own id. -/
def loopStep (s : BState) : Option BState :=
  match s.queue with
  | [] => none
  | c :: rest =>
    match s.heap[c]? with
    | none => none
    | some cell =>
      match cell.task.parent_id with
      | none => none
      | some p =>
        match lookupA s.table p with
        | none => some { s with queue := rest ++ [c], fails := s.fails + 1 }
        | some pc =>
          let heap1 := s.heap.set c { cell with parent := some () }
          match heap1[pc]? with
          | none => none
          | some pcell =>
            some { heap := heap1.set pc { pcell with subtasks := pcell.subtasks ++ [c] }
                 , table := insertA s.table cell.task.id c
                 , queue := rest
                 , fails := 0 }

/-- The retry loop on fuel: runs `loopStep` while the guard holds.
`none` is a modelled panic or fuel exhaustion (`from_tasks` supplies a
fuel proved sufficient). -/
def runLoop : Nat → BState → Option BState
  | 0, s => if guardB s then none else some s
  | f + 1, s => if guardB s then (loopStep s).bind (runLoop f) else some s

/-- Fuel that suffices to drive the retry loop to a halted state. -/
def loopFuel (s : BState) : Nat :=
  s.queue.length * (s.queue.length + 2) + (s.queue.length + 1)

/-- Collect a list of options, failing if any entry is `none`. -/
def optList {α : Type} : List (Option α) → Option (List α)
  | [] => some []
  | none :: _ => none
  | some a :: rest => (optList rest).map (a :: ·)

/-- `TaskTreeBuilder::finalize` on the heap: recursively convert the
builder cell at index `c` into a `TaskTree`. Runs on fuel; `none`
models the panics of `Rc::try_unwrap(..).expect(..)`/unbounded
recursion, and is proved unreachable on the states `from_tasks`
produces. -/
def finalizeCell (heap : List Cell) : Nat → Nat → Option TaskTree
  | 0, _ => none
  | f + 1, c =>
    match heap[c]? with
    | none => none
    | some cell =>
      match optList (cell.subtasks.map (finalizeCell heap f)) with
      | none => none
      | some subs => some (.mk cell.task subs)

/-- The filter `from_tasks` applies when collecting the forest:
`c.borrow().parent.is_none()`. -/
def isRootCell (heap : List Cell) (c : Nat) : Bool :=
  match heap[c]? with
  | some cell => cell.parent.isNone
  | none => true

/-- The final collection step of `from_tasks`, with the table iteration
order given explicitly by `entries`: keep the cells never attached as a
child, finalize each. -/
def collectForestFrom (heap : List Cell) (entries : List (Nat × Nat)) (fuel : Nat) :
    Option (List TaskTree) :=
  optList (((entries.map (·.2)).filter (isRootCell heap)).map (finalizeCell heap fuel))

/-- The result of `from_tasks`: a modelled panic, the
`bail!("missing parent nodes in {} subtasks", subtasks.len())` error
carrying the length of the leftover queue, or the forest. -/
inductive BuildResult where
  | crash : BuildResult
  | error : Nat → BuildResult
  | ok : List TaskTree → BuildResult

/-- `TaskTree::from_tasks`: partition the records, run the bounded
retry loop, fail with the unresolved-parent error if candidates are
left over, otherwise collect and finalize the roots (table iteration
in insertion order). -/
def from_tasks (tasks : List Task) : BuildResult :=
  let s0 := initState tasks
  match runLoop (loopFuel s0) s0 with
  | none => .crash
  | some s =>
    if s.queue.isEmpty then
      match collectForestFrom s.heap s.table (s.heap.length + 1) with
      | none => .crash
      | some forest => .ok forest
    else .error s.queue.length

/-- `TaskTree::from_tasks` with the iteration order of the final
`HashMap` (unspecified in the original) supplied explicitly: `ord`
stands for the entry sequence the map hands to `into_iter()`. -/
def from_tasksWith (tasks : List Task) (ord : List (Nat × Nat)) : BuildResult :=
  let s0 := initState tasks
  match runLoop (loopFuel s0) s0 with
  | none => .crash
  | some s =>
    if s.queue.isEmpty then
      match collectForestFrom s.heap ord (s.heap.length + 1) with
      | none => .crash
      | some forest => .ok forest
    else .error s.queue.length

/-- A record's parent chain bottoms out, within `f` steps, at a record
of the input set that has no parent: the resolvability notion of the
specification. -/
def rootedFuel (tasks : List Task) : Nat → Task → Bool
  | 0, _ => false
  | f + 1, t =>
    match t.parent_id with
    | none => true
    | some p => tasks.any (fun u => u.id == p && rootedFuel tasks f u)

/-- Resolvability with the chain length capped at the input size; by
`rooted_iff_exists_fuel` this cap loses nothing for input records. -/
def rooted (tasks : List Task) (t : Task) : Bool :=
  rootedFuel tasks tasks.length t

/-- The test initializer `Task::new` of task.rs, with the parent
identifier supplied directly. -/
def mkTask (id : Nat) (pid : Option Nat) : Task :=
  { id := id
  , project_id := 0
  , section_id := none
  , content := ""
  , description := ""
  , completed := false
  , label_ids := []
  , parent_id := pid
  , order := 0
  , priority := .Normal
  , due := none
  , url := ""
  , comment_count := 0
  , assignee := none
  , assigner := none
  , created := 0 }

/-- Recognizer for the single chain 1 ← 2 ← 3 ← 4: exactly one root
with id 1, one nested chain of depth 4 with ids 2, 3, 4 below it. -/
def chainCheck : BuildResult → Bool
  | .ok [.mk t1 [.mk t2 [.mk t3 [.mk t4 []]]]] =>
    t1.id == 1 && t2.id == 2 && t3.id == 3 && t4.id == 4
  | _ => false

/-- The last `k` elements of a list. -/
def lastN (k : Nat) (l : List α) : List α := l.drop (l.length - k)

/-- Total number of occurrences of `x` among the children lists of the
heap: the number of `Rc` references to cell `x` held by parents. -/
def countChild (heap : List Cell) (x : Nat) : Nat :=
  (heap.map (fun cell => cell.subtasks.count x)).sum

/-- The loop invariant of the candidate-requeue loop of `from_tasks`,
for arbitrary inputs (duplicate identifiers allowed). All statements
are about the current state only. -/
structure Inv (tasks : List Task) (s : BState) : Prop where
  heap_tasks : s.heap.map Cell.task = tasks
  queue_lt : ∀ c ∈ s.queue, c < s.heap.length
  queue_cell : ∀ (c : Nat) (cell : Cell), c ∈ s.queue → s.heap[c]? = some cell →
    cell.task.parent_id.isSome = true ∧ cell.parent = none ∧ cell.subtasks = []
  queue_nd : s.queue.Nodup
  tv_lt : ∀ e ∈ s.table, e.2 < s.heap.length
  tv_key : ∀ (e : Nat × Nat) (cell : Cell), e ∈ s.table → s.heap[e.2]? = some cell →
    cell.task.id = e.1
  keys_nd : (s.table.map (·.1)).Nodup
  vals_nd : (s.table.map (·.2)).Nodup
  disj : ∀ c ∈ s.queue, ∀ e ∈ s.table, e.2 ≠ c
  child_lt : ∀ (i : Nat) (cell : Cell) (c : Nat), s.heap[i]? = some cell →
    c ∈ cell.subtasks → c < s.heap.length
  child_par : ∀ (i : Nat) (cell : Cell) (c : Nat) (ccell : Cell), s.heap[i]? = some cell →
    c ∈ cell.subtasks → s.heap[c]? = some ccell → ccell.task.parent_id = some cell.task.id
  flag_count : ∀ (i : Nat) (cell : Cell), s.heap[i]? = some cell →
    (cell.parent = some () ↔ countChild s.heap i = 1) ∧ countChild s.heap i ≤ 1
  notqueue_key : ∀ (i : Nat) (cell : Cell), s.heap[i]? = some cell → i ∉ s.queue →
    cell.task.id ∈ s.table.map (·.1)
  notqueue_rooted : ∀ (i : Nat) (cell : Cell), s.heap[i]? = some cell → i ∉ s.queue →
    ∃ f, rootedFuel tasks f cell.task = true
  tv_root : ∀ (e : Nat × Nat) (cell : Cell), e ∈ s.table → s.heap[e.2]? = some cell →
    cell.parent = none → cell.task.parent_id = none
  streak : ∀ c ∈ lastN (min s.fails s.queue.length) s.queue, ∀ (cell : Cell),
    s.heap[c]? = some cell → ∀ (p : Nat), cell.task.parent_id = some p →
    lookupA s.table p = none

/-- The state after a failed parent lookup. -/
def missState (s : BState) (c : Nat) (rest : List Nat) : BState :=
  { s with queue := rest ++ [c], fails := s.fails + 1 }

/-- The state after a successful attach of candidate cell `c` (with
record `cell`) under parent cell `pc` (with record `pcell`). -/
def attachState (s : BState) (c : Nat) (rest : List Nat) (cell : Cell) (pc : Nat)
    (pcell : Cell) : BState :=
  { heap := (s.heap.set c { cell with parent := some () }).set pc
              { pcell with subtasks := pcell.subtasks ++ [c] }
  , table := insertA s.table cell.task.id c
  , queue := rest
  , fails := 0 }

/-- Loop variant: strictly decreases at every guarded iteration. -/
def mW (s : BState) : Nat :=
  s.queue.length * (s.queue.length + 2) + (s.queue.length + 1 - s.fails)

/-- The single candidate of the one-record input `{2, parent 1}` after
its first miss: the state where the miss counter has just reached the
queue length. -/
def c3State : BState := missState (initState [mkTask 2 (some 1)]) 0 []

/-- The records resolvable within `f` steps, as a finite set. -/
def rootedSet (tasks : List Task) (f : Nat) : Finset Task :=
  tasks.toFinset.filter (fun t => rootedFuel tasks f t = true)

/-- Local parent/child coherence of an output tree: every child's
record points at its parent's identifier, recursively. Trees are
finite inductive values, so a forest of `GoodTree`s has no cycles. -/
inductive GoodTree : TaskTree → Prop
  | mk : ∀ (t : Task) (subs : List TaskTree),
      (∀ s ∈ subs, s.task.parent_id = some t.id) →
      (∀ s ∈ subs, GoodTree s) → GoodTree (.mk t subs)

/-- Two build results have the same shape: identical outcome, identical
error count, and on success the same trees up to the order of roots. -/
def ResultShapeEq : BuildResult → BuildResult → Prop
  | .ok f1, .ok f2 => f1.Perm f2
  | .error a, .error b => a = b
  | .crash, .crash => True
  | _, _ => False

/-- Rose tree of heap indices: the ghost shape of the builder cells
reachable from the root cells of the table. -/
inductive CTree where
  | mk : Nat → List CTree → CTree

/-- The heap index at the root of a ghost tree. -/
def CTree.rootIdx : CTree → Nat
  | .mk c _ => c

mutual

/-- All heap indices of a ghost tree, root first. -/
def flattenCT : CTree → List Nat
  | .mk c ks => c :: flattenF ks

/-- All heap indices of a ghost forest. -/
def flattenF : List CTree → List Nat
  | [] => []
  | t :: ts => flattenCT t ++ flattenF ts

end

mutual

/-- Append a new leaf `c` under every node labelled `p`. -/
def attachCT (p c : Nat) : CTree → CTree
  | .mk x ks => .mk x (attachF p c ks ++ (if x == p then [CTree.mk c []] else []))

/-- `attachCT` on every tree of a forest. -/
def attachF (p c : Nat) : List CTree → List CTree
  | [] => []
  | t :: ts => attachCT p c t :: attachF p c ts

end

mutual

/-- Height of a ghost tree. -/
def heightCT : CTree → Nat
  | .mk _ ks => heightF ks + 1

/-- Maximal height in a ghost forest. -/
def heightF : List CTree → Nat
  | [] => 0
  | t :: ts => max (heightCT t) (heightF ts)

end

/-- The ghost tree matches the heap: each node's cell stores exactly
the children the ghost records, in order. -/
inductive GhostOK (heap : List Cell) : CTree → Prop
  | intro : ∀ (c : Nat) (ks : List CTree) (cell : Cell), heap[c]? = some cell →
      cell.subtasks = ks.map CTree.rootIdx →
      (∀ k ∈ ks, GhostOK heap k) → GhostOK heap (.mk c ks)

/-- The cells the final collection of `from_tasks` will turn into
roots: table values never attached as a child. -/
def rootIdxs (heap : List Cell) (entries : List (Nat × Nat)) : List Nat :=
  (entries.map (·.2)).filter (isRootCell heap)

/-- The task records stored at a list of heap indices. -/
def cellTasks (heap : List Cell) (cs : List Nat) : List Task :=
  cs.filterMap (fun c => (heap[c]?).map Cell.task)

/-- Additional loop invariant for inputs with pairwise distinct
identifiers: every cell is either queued or a table value, and the
live cells form a ghost forest aligned with the table. -/
structure InvD (s : BState) : Prop where
  cover : ∀ i < s.heap.length, i ∈ s.queue ∨ i ∈ s.table.map (·.2)
  ghost : ∃ gf : List CTree, (flattenF gf).Perm (s.table.map (·.2)) ∧
      gf.map CTree.rootIdx = rootIdxs s.heap s.table ∧
      ∀ t ∈ gf, GhostOK s.heap t

/-- The chain input of the specification: 1 ← 2 ← 3 ← 4. -/
def chainTasks : List Task :=
  [mkTask 1 none, mkTask 2 (some 1), mkTask 3 (some 2), mkTask 4 (some 3)]

/-- All ways of inserting `a` into a list (kernel-computable). -/
def inserts {α : Type} (a : α) : List α → List (List α)
  | [] => [[a]]
  | b :: bs => (a :: b :: bs) :: (inserts a bs).map (b :: ·)

/-- All permutations of a list (kernel-computable). -/
def perms {α : Type} : List α → List (List α)
  | [] => [[]]
  | a :: as => ((perms as).map (inserts a)).flatten

theorem lookupA_eq_none_iff {l : List (Nat × Nat)} {k : Nat} :
    lookupA l k = none ↔ k ∉ l.map (·.1) := by
  simp only [lookupA, Option.map_eq_none', List.find?_eq_none, List.mem_map]
  constructor
  · rintro h ⟨⟨a, b⟩, hmem, rfl⟩
    exact absurd (by simp) (h _ hmem)
  · intro h x hx
    simp only [beq_iff_eq]
    intro hk
    exact h ⟨x, hx, hk⟩

theorem lookupA_mem {l : List (Nat × Nat)} {k v : Nat} (h : lookupA l k = some v) :
    (k, v) ∈ l := by
  simp only [lookupA, Option.map_eq_some'] at h
  obtain ⟨⟨a, b⟩, hfind, rfl⟩ := h
  have ha := List.find?_some hfind
  have hmem := List.mem_of_find?_eq_some hfind
  simp only [beq_iff_eq] at ha
  subst ha
  exact hmem

theorem lookupA_isSome_of_mem {l : List (Nat × Nat)} {k : Nat}
    (h : k ∈ l.map (·.1)) : (lookupA l k).isSome := by
  rcases Option.eq_none_or_eq_some (lookupA l k) with hn | ⟨v, hv⟩
  · exact absurd h (lookupA_eq_none_iff.mp hn)
  · simp [hv]

theorem keys_insertA_of_mem {l : List (Nat × Nat)} {k v : Nat}
    (h : k ∈ l.map (·.1)) : (insertA l k v).map (·.1) = l.map (·.1) := by
  have : (l.find? (fun p => p.1 == k)).isSome := by
    simp only [List.find?_isSome]
    simp only [List.mem_map] at h
    obtain ⟨e, he, hk⟩ := h
    exact ⟨e, he, by simp [hk]⟩
  simp only [insertA, this, if_pos]
  rw [List.map_map]
  apply List.map_congr_left
  intro e _
  by_cases hk : e.1 = k <;> simp [hk]

theorem insertA_of_not_mem {l : List (Nat × Nat)} {k v : Nat}
    (h : k ∉ l.map (·.1)) : insertA l k v = l ++ [(k, v)] := by
  have : ¬(l.find? (fun p => p.1 == k)).isSome := by
    simp only [List.find?_isSome, not_exists]
    intro e
    rintro ⟨hmem, hk⟩
    simp only [beq_iff_eq] at hk
    exact h (List.mem_map.mpr ⟨e, hmem, hk⟩)
  simp [insertA, this]

theorem mem_insertA {l : List (Nat × Nat)} {k v : Nat} {e : Nat × Nat}
    (h : e ∈ insertA l k v) : e = (k, v) ∨ (e ∈ l ∧ e.1 ≠ k) := by
  unfold insertA at h
  by_cases hf : (l.find? (fun p => p.1 == k)).isSome
  · rw [if_pos hf] at h
    obtain ⟨e', he', hfe⟩ := List.mem_map.mp h
    by_cases hk : e'.1 = k
    · simp only [hk, beq_self_eq_true, if_pos] at hfe
      left; exact hfe.symm
    · simp only [beq_iff_eq, hk, if_neg, if_false] at hfe
      right; exact ⟨hfe ▸ he', hfe ▸ hk⟩
  · rw [if_neg hf] at h
    rcases List.mem_append.mp h with h | h
    · right
      refine ⟨h, fun hek => ?_⟩
      simp only [List.find?_isSome, not_exists] at hf
      exact (hf e ⟨h, by simp [hek]⟩ : False).elim
    · left; simpa using h

theorem mem_keys_split {l : List (Nat × Nat)} {k : Nat} (h : k ∈ l.map (·.1)) :
    ∃ l₁ w l₂, l = l₁ ++ (k, w) :: l₂ := by
  obtain ⟨⟨a, b⟩, he, hk⟩ := List.mem_map.mp h
  simp only at hk
  subst hk
  obtain ⟨s, t, hst⟩ := List.append_of_mem he
  exact ⟨s, b, t, hst⟩

theorem keys_append_cons {l₁ l₂ : List (Nat × Nat)} {k w : Nat} :
    ((l₁ ++ (k, w) :: l₂).map (·.1)) = l₁.map (·.1) ++ k :: l₂.map (·.1) := by
  simp

theorem insertA_split {l₁ l₂ : List (Nat × Nat)} {k w v : Nat}
    (hnd : ((l₁ ++ (k, w) :: l₂).map (·.1)).Nodup) :
    insertA (l₁ ++ (k, w) :: l₂) k v = l₁ ++ (k, v) :: l₂ := by
  rw [keys_append_cons] at hnd
  have hk1 : k ∉ l₁.map (·.1) := by
    intro hmem
    exact List.disjoint_of_nodup_append hnd hmem (by simp)
  have hk2 : k ∉ l₂.map (·.1) := by
    have h2 := hnd.of_append_right
    exact (List.nodup_cons.mp h2).1
  have hfind : ((l₁ ++ (k, w) :: l₂).find? (fun p => p.1 == k)).isSome := by
    simp only [List.find?_isSome]
    exact ⟨(k, w), by simp, by simp⟩
  unfold insertA
  rw [if_pos hfind, List.map_append, List.map_cons]
  have hmap1 : l₁.map (fun p => if p.1 == k then (k, v) else p) = l₁ := by
    conv_rhs => rw [show l₁ = l₁.map id from (List.map_id l₁).symm]
    apply List.map_congr_left
    intro e he
    have hek : e.1 ≠ k := fun hek => hk1 (List.mem_map.mpr ⟨e, he, hek⟩)
    simp [hek]
  have hmap2 : l₂.map (fun p => if p.1 == k then (k, v) else p) = l₂ := by
    conv_rhs => rw [show l₂ = l₂.map id from (List.map_id l₂).symm]
    apply List.map_congr_left
    intro e he
    have hek : e.1 ≠ k := fun hek => hk2 (List.mem_map.mpr ⟨e, he, hek⟩)
    simp [hek]
  rw [hmap1, hmap2]
  simp

theorem lastN_zero {l : List α} : lastN 0 l = [] := by
  simp [lastN]

theorem lastN_of_le {k : Nat} {l : List α} (h : l.length ≤ k) : lastN k l = l := by
  simp [lastN, Nat.sub_eq_zero_of_le h]

theorem mem_of_mem_lastN {k : Nat} {l : List α} {x : α} (h : x ∈ lastN k l) : x ∈ l :=
  List.mem_of_mem_drop h

theorem lastN_cons_of_le {k : Nat} {c : α} {t : List α} (h : k ≤ t.length) :
    lastN k (c :: t) = lastN k t := by
  simp only [lastN, List.length_cons]
  rw [show t.length + 1 - k = (t.length - k) + 1 by omega, List.drop_succ_cons]

theorem lastN_append_singleton {k : Nat} {t : List α} {c : α} (h1 : 1 ≤ k)
    (h2 : k ≤ t.length + 1) :
    lastN k (t ++ [c]) = lastN (k - 1) t ++ [c] := by
  simp only [lastN, List.length_append, List.length_cons, List.length_nil]
  rw [List.drop_append_of_le_length (by omega)]
  congr 2
  omega

theorem countChild_cons {cell : Cell} {heap : List Cell} {x : Nat} :
    countChild (cell :: heap) x = cell.subtasks.count x + countChild heap x := by
  simp [countChild]

theorem countChild_set {heap : List Cell} {i : Nat} {cell a : Cell}
    (h : heap[i]? = some cell) (x : Nat) :
    countChild (heap.set i a) x + cell.subtasks.count x
      = countChild heap x + a.subtasks.count x := by
  induction heap generalizing i with
  | nil => simp at h
  | cons c0 t ih =>
    cases i with
    | zero =>
      simp only [List.getElem?_cons_zero, Option.some.injEq] at h
      subst h
      simp only [List.set_cons_zero, countChild_cons]
      omega
    | succ j =>
      simp only [List.getElem?_cons_succ] at h
      simp only [List.set_cons_succ, countChild_cons]
      have := ih h
      omega

theorem countChild_pos_iff {heap : List Cell} {x : Nat} :
    0 < countChild heap x ↔ ∃ cell ∈ heap, x ∈ cell.subtasks := by
  induction heap with
  | nil => simp [countChild]
  | cons c t ih =>
    rw [countChild_cons]
    constructor
    · intro h
      by_cases hc : 0 < c.subtasks.count x
      · exact ⟨c, by simp, List.count_pos_iff.mp hc⟩
      · have : 0 < countChild t x := by omega
        obtain ⟨cell, hmem, hx⟩ := ih.mp this
        exact ⟨cell, by simp [hmem], hx⟩
    · rintro ⟨cell, hmem, hx⟩
      rcases List.mem_cons.mp hmem with rfl | hmem
      · have := List.count_pos_iff.mpr hx
        omega
      · have := ih.mpr ⟨cell, hmem, hx⟩
        omega

theorem set_self_of_getElem? {l : List α} {i : Nat} {a : α} (h : l[i]? = some a) :
    l.set i a = l := by
  have hlt : i < l.length := by
    rcases List.getElem?_eq_some_iff.mp h with ⟨hl, _⟩
    exact hl
  apply List.ext_getElem?
  intro n
  by_cases hn : n = i
  · subst hn
    rw [List.getElem?_set_self hlt, h]
  · rw [List.getElem?_set_ne (fun he => hn he.symm)]

theorem task_mem_of_getElem? {tasks : List Task} {heap : List Cell}
    (hht : heap.map Cell.task = tasks) {i : Nat} {cell : Cell}
    (h : heap[i]? = some cell) : cell.task ∈ tasks := by
  subst hht
  exact List.mem_map.mpr ⟨cell, List.getElem?_mem h, rfl⟩

theorem exists_cell_of_mem {tasks : List Task} {heap : List Cell}
    (hht : heap.map Cell.task = tasks) {u : Task} (hu : u ∈ tasks) :
    ∃ (i : Nat) (cell : Cell), heap[i]? = some cell ∧ cell.task = u := by
  subst hht
  obtain ⟨cell, hmem, hcell⟩ := List.mem_map.mp hu
  obtain ⟨i, hi⟩ := List.mem_iff_getElem?.mp hmem
  exact ⟨i, cell, hi, hcell⟩

/-- Under the invariant, a guarded iteration never panics and is either
a miss (re-enqueue, counter up) or an attach (counter reset). -/
theorem loopStep_spec {tasks : List Task} {s : BState} (hInv : Inv tasks s)
    (hg : guardB s = true) :
    ∃ (c : Nat) (rest : List Nat) (cell : Cell) (p : Nat), s.queue = c :: rest ∧
      s.heap[c]? = some cell ∧ cell.task.parent_id = some p ∧
      ((lookupA s.table p = none ∧ loopStep s = some (missState s c rest)) ∨
       (∃ (pc : Nat) (pcell : Cell), lookupA s.table p = some pc ∧
          s.heap[pc]? = some pcell ∧ pc ≠ c ∧ (p, pc) ∈ s.table ∧
          loopStep s = some (attachState s c rest cell pc pcell))) := by
  have hq : ¬s.queue.isEmpty := by
    simp only [guardB, Bool.and_eq_true, Bool.not_eq_true'] at hg
    simp [hg.1]
  obtain ⟨c, rest, hqe⟩ : ∃ c rest, s.queue = c :: rest := by
    cases hqv : s.queue with
    | nil => rw [hqv] at hq; simp at hq
    | cons a l => exact ⟨a, l, rfl⟩
  have hclt : c < s.heap.length := hInv.queue_lt c (by rw [hqe]; simp)
  obtain ⟨cell, hcell⟩ : ∃ cell, s.heap[c]? = some cell := by
    rw [List.getElem?_eq_getElem hclt]
    exact ⟨_, rfl⟩
  obtain ⟨hps, _, _⟩ := hInv.queue_cell c cell (by rw [hqe]; simp) hcell
  obtain ⟨p, hp⟩ := Option.isSome_iff_exists.mp hps
  refine ⟨c, rest, cell, p, hqe, hcell, hp, ?_⟩
  cases hlk : lookupA s.table p with
  | none =>
    left
    refine ⟨rfl, ?_⟩
    simp only [loopStep, hqe, hcell, hp, hlk, missState]
  | some pc =>
    right
    have hmem : (p, pc) ∈ s.table := lookupA_mem hlk
    have hpclt : pc < s.heap.length := hInv.tv_lt (p, pc) hmem
    obtain ⟨pcell, hpcell⟩ : ∃ pcell, s.heap[pc]? = some pcell := by
      rw [List.getElem?_eq_getElem hpclt]
      exact ⟨_, rfl⟩
    have hne : pc ≠ c := hInv.disj c (by rw [hqe]; simp) (p, pc) hmem
    refine ⟨pc, pcell, rfl, hpcell, hne, hmem, ?_⟩
    have hpc1 : (s.heap.set c { cell with parent := some () })[pc]? = some pcell := by
      rw [List.getElem?_set_ne (Ne.symm hne)]
      exact hpcell
    simp only [loopStep, hqe, hcell, hp, hlk, hpc1, attachState]

theorem inv_miss {tasks : List Task} {s : BState} {c : Nat} {rest : List Nat} {cell : Cell}
    {p : Nat} (hInv : Inv tasks s) (hqe : s.queue = c :: rest)
    (hcell : s.heap[c]? = some cell) (hp : cell.task.parent_id = some p)
    (hlk : lookupA s.table p = none) :
    Inv tasks (missState s c rest) := by
  have hmemq : ∀ x, x ∈ rest ++ [c] → x ∈ s.queue := by
    intro x hx
    rw [hqe]
    rcases List.mem_append.mp hx with hx | hx
    · exact List.mem_cons_of_mem _ hx
    · simp only [List.mem_singleton] at hx
      subst hx
      exact List.mem_cons_self _ _
  have hnotq : ∀ i, i ∉ rest ++ [c] → i ∉ s.queue := by
    intro i hi hmem
    rw [hqe] at hmem
    rcases List.mem_cons.mp hmem with rfl | hmem
    · exact hi (by simp)
    · exact hi (by simp [hmem])
  have hndq : (c :: rest).Nodup := by
    rw [← hqe]
    exact hInv.queue_nd
  have hcnotin : c ∉ rest := (List.nodup_cons.mp hndq).1
  have hrestnd : rest.Nodup := (List.nodup_cons.mp hndq).2
  refine
    { heap_tasks := hInv.heap_tasks
      queue_lt := fun x hx => hInv.queue_lt x (hmemq x hx)
      queue_cell := fun x xcell hx hxc => hInv.queue_cell x xcell (hmemq x hx) hxc
      queue_nd := ?_
      tv_lt := hInv.tv_lt
      tv_key := hInv.tv_key
      keys_nd := hInv.keys_nd
      vals_nd := hInv.vals_nd
      disj := fun x hx => hInv.disj x (hmemq x hx)
      child_lt := hInv.child_lt
      child_par := hInv.child_par
      flag_count := hInv.flag_count
      notqueue_key := fun i icell hi hni => hInv.notqueue_key i icell hi (hnotq i hni)
      notqueue_rooted := fun i icell hi hni => hInv.notqueue_rooted i icell hi (hnotq i hni)
      tv_root := hInv.tv_root
      streak := ?_ }
  · simp [missState, List.nodup_append, hcnotin, hrestnd]
  · -- the streak of consecutive misses has grown by the candidate just missed
    intro x hx xcell hxc px hpx
    simp only [missState] at hx hxc ⊢
    have hR : (rest ++ [c]).length = rest.length + 1 := by simp
    set k2 := min (s.fails + 1) (rest ++ [c]).length with hk2
    have hk2ge : 1 ≤ k2 := by
      rw [hk2, hR]
      omega
    have hk2le : k2 ≤ rest.length + 1 := by
      rw [hk2, hR]
      omega
    rw [lastN_append_singleton hk2ge hk2le] at hx
    rcases List.mem_append.mp hx with hx | hx
    · -- x was already in the streak before this iteration
      have hold : x ∈ lastN (min s.fails s.queue.length) s.queue := by
        rw [hqe]
        by_cases hf : s.fails ≤ rest.length
        · have h1 : k2 - 1 = s.fails := by
            rw [hk2, hR]
            omega
          have h2 : min s.fails (c :: rest).length = s.fails := by
            simp only [List.length_cons]
            omega
          rw [h2, lastN_cons_of_le hf]
          rw [h1] at hx
          exact hx
        · have h2 : min s.fails (c :: rest).length = (c :: rest).length := by
            simp only [List.length_cons]
            omega
          rw [h2, lastN_of_le (le_refl _)]
          exact List.mem_cons_of_mem _ (mem_of_mem_lastN hx)
      exact hInv.streak x hold xcell hxc px hpx
    · -- x is the candidate missed in this very iteration
      simp only [List.mem_singleton] at hx
      subst hx
      rw [hcell, Option.some.injEq] at hxc
      subst hxc
      rw [hp, Option.some.injEq] at hpx
      subst hpx
      exact hlk

theorem inv_attach {tasks : List Task} {s : BState} {c : Nat} {rest : List Nat}
    {cell : Cell} {p pc : Nat} {pcell : Cell}
    (hInv : Inv tasks s) (hqe : s.queue = c :: rest)
    (hcell : s.heap[c]? = some cell) (hp : cell.task.parent_id = some p)
    (hpcell : s.heap[pc]? = some pcell) (hne : pc ≠ c) (hmem : (p, pc) ∈ s.table) :
    Inv tasks (attachState s c rest cell pc pcell) := by
  have hclt : c < s.heap.length := (List.getElem?_eq_some_iff.mp hcell).1
  have hpclt : pc < s.heap.length := (List.getElem?_eq_some_iff.mp hpcell).1
  have hcq : c ∈ s.queue := by rw [hqe]; simp
  obtain ⟨hps, hflagc, hsubc⟩ := hInv.queue_cell c cell hcq hcell
  have hpcnotq : pc ∉ s.queue := fun hin => hInv.disj pc hin (p, pc) hmem rfl
  have hndq : (c :: rest).Nodup := by rw [← hqe]; exact hInv.queue_nd
  have hcnotin : c ∉ rest := (List.nodup_cons.mp hndq).1
  have hrestnd : rest.Nodup := (List.nodup_cons.mp hndq).2
  have hpid : pcell.task.id = p := hInv.tv_key (p, pc) pcell hmem hpcell
  have hrestq : ∀ x, x ∈ rest → x ∈ s.queue := by
    intro x hx; rw [hqe]; exact List.mem_cons_of_mem _ hx
  have hnotq : ∀ i, i ≠ c → i ∉ rest → i ∉ s.queue := by
    intro i hic hir hmem'
    rw [hqe] at hmem'
    rcases List.mem_cons.mp hmem' with rfl | hmem'
    · exact hic rfl
    · exact hir hmem'
  set cellF : Cell := { cell with parent := some () } with hcellFdef
  set pcell2 : Cell := { pcell with subtasks := pcell.subtasks ++ [c] } with hpcell2def
  set heap2 : List Cell := (s.heap.set c cellF).set pc pcell2 with hheap2def
  set table2 : List (Nat × Nat) := insertA s.table cell.task.id c with htable2def
  have hlen1 : (s.heap.set c cellF).length = s.heap.length := by simp
  have hlen : heap2.length = s.heap.length := by simp [hheap2def]
  have hget_pc : heap2[pc]? = some pcell2 := by
    rw [hheap2def, List.getElem?_set_self (by rw [hlen1]; exact hpclt)]
  have hget_c : heap2[c]? = some cellF := by
    rw [hheap2def, List.getElem?_set_ne hne, List.getElem?_set_self hclt]
  have hget_other : ∀ x, x ≠ pc → x ≠ c → heap2[x]? = s.heap[x]? := by
    intro x hxpc hxc
    rw [hheap2def, List.getElem?_set_ne (fun h => hxpc h.symm),
      List.getElem?_set_ne (fun h => hxc h.symm)]
  have hcnv : c ∉ s.table.map (·.2) := by
    intro hmem'
    obtain ⟨e, he, hev⟩ := List.mem_map.mp hmem'
    exact hInv.disj c hcq e he hev
  have hcount : ∀ x, countChild heap2 x
      = countChild s.heap x + (if x = c then 1 else 0) := by
    intro x
    have h1 := countChild_set (a := cellF) hcell x
    have hpc1 : (s.heap.set c cellF)[pc]? = some pcell := by
      rw [List.getElem?_set_ne (Ne.symm hne)]
      exact hpcell
    have h2 := countChild_set (a := pcell2) hpc1 x
    have hcF : cellF.subtasks.count x = cell.subtasks.count x := rfl
    have hc2 : pcell2.subtasks.count x
        = pcell.subtasks.count x + (if x = c then 1 else 0) := by
      rw [hpcell2def]
      simp only [List.count_append, List.count_cons, List.count_nil]
      by_cases hxc : x = c
      · simp [hxc]
      · simp [hxc, Ne.symm hxc]
    rw [← hheap2def] at h2
    omega
  have hc0 : countChild s.heap c = 0 := by
    obtain ⟨hiff, hle⟩ := hInv.flag_count c cell hcell
    by_contra h
    have h1 : countChild s.heap c = 1 := by omega
    have := hiff.mpr h1
    rw [hflagc] at this
    cases this
  have hcnotchild : ∀ (i : Nat) (icell : Cell), s.heap[i]? = some icell →
      c ∉ icell.subtasks := by
    intro i icell hi hcmem
    have : 0 < countChild s.heap c :=
      countChild_pos_iff.mpr ⟨icell, List.getElem?_mem hi, hcmem⟩
    omega
  -- task fields of heap cells are untouched
  have htask : ∀ (x : Nat) (xcell : Cell), heap2[x]? = some xcell →
      ∃ xcell0, s.heap[x]? = some xcell0 ∧ xcell.task = xcell0.task := by
    intro x xcell hx
    by_cases hxpc : x = pc
    · subst hxpc
      rw [hget_pc, Option.some.injEq] at hx
      exact ⟨pcell, hpcell, by rw [← hx]⟩
    · by_cases hxc : x = c
      · subst hxc
        rw [hget_c, Option.some.injEq] at hx
        exact ⟨cell, hcell, by rw [← hx]⟩
      · rw [hget_other x hxpc hxc] at hx
        exact ⟨xcell, hx, rfl⟩
  -- key facts about the updated table
  have hkeys_sup : ∀ k, k ∈ s.table.map (·.1) → k ∈ table2.map (·.1) := by
    intro k hk
    rw [htable2def]
    by_cases hkin : cell.task.id ∈ s.table.map (·.1)
    · rw [keys_insertA_of_mem hkin]; exact hk
    · rw [insertA_of_not_mem hkin]; simp only [List.map_append, List.mem_append]; left; exact hk
  have hkeys_new : cell.task.id ∈ table2.map (·.1) := by
    rw [htable2def]
    by_cases hkin : cell.task.id ∈ s.table.map (·.1)
    · rw [keys_insertA_of_mem hkin]; exact hkin
    · rw [insertA_of_not_mem hkin]; simp
  show Inv tasks (BState.mk heap2 table2 rest 0)
  refine ⟨?_, ?_, ?_, ?_, ?_, ?_, ?_, ?_, ?_, ?_, ?_, ?_, ?_, ?_, ?_, ?_⟩
  · -- heap_tasks
    show heap2.map Cell.task = tasks
    rw [hheap2def]
    rw [List.map_set, List.map_set]
    have e1 : (s.heap.map Cell.task).set c cellF.task = s.heap.map Cell.task := by
      apply set_self_of_getElem?
      rw [List.getElem?_map, hcell]
      rfl
    have e2 : (s.heap.map Cell.task).set pc pcell2.task = s.heap.map Cell.task := by
      apply set_self_of_getElem?
      rw [List.getElem?_map, hpcell]
      rfl
    calc ((s.heap.map Cell.task).set c cellF.task).set pc pcell2.task
        = (s.heap.map Cell.task).set pc pcell2.task := by rw [e1]
      _ = s.heap.map Cell.task := e2
      _ = tasks := hInv.heap_tasks
  · -- queue_lt
    intro x hx
    replace hx : x ∈ rest := hx
    show x < heap2.length
    rw [hlen]
    exact hInv.queue_lt x (hrestq x hx)
  · -- queue_cell
    intro x xcell hx hxcell
    replace hx : x ∈ rest := hx
    replace hxcell : heap2[x]? = some xcell := hxcell
    have hxq : x ∈ s.queue := hrestq x hx
    have hxc : x ≠ c := fun h => hcnotin (h ▸ hx)
    have hxpc : x ≠ pc := fun h => hpcnotq (h ▸ hxq)
    rw [hget_other x hxpc hxc] at hxcell
    exact hInv.queue_cell x xcell hxq hxcell
  · -- queue_nd
    exact hrestnd
  · -- tv_lt
    intro e he
    replace he : e ∈ table2 := he
    rw [htable2def] at he
    show e.2 < heap2.length
    rw [hlen]
    rcases mem_insertA he with rfl | ⟨he', _⟩
    · exact hclt
    · exact hInv.tv_lt e he'
  · -- tv_key
    intro e ecell he hecell
    replace he : e ∈ table2 := he
    rw [htable2def] at he
    replace hecell : heap2[e.2]? = some ecell := hecell
    rcases mem_insertA he with rfl | ⟨he', _⟩
    · rw [hget_c, Option.some.injEq] at hecell
      rw [← hecell]
    · have hec : e.2 ≠ c := hInv.disj c hcq e he'
      obtain ⟨ecell0, hecell0, htsk⟩ := htask e.2 ecell hecell
      rw [htsk]
      exact hInv.tv_key e ecell0 he' hecell0
  · -- keys_nd
    show (table2.map (·.1)).Nodup
    rw [htable2def]
    by_cases hkin : cell.task.id ∈ s.table.map (·.1)
    · rw [keys_insertA_of_mem hkin]
      exact hInv.keys_nd
    · rw [insertA_of_not_mem hkin]
      simp only [List.map_append, List.map_cons, List.map_nil]
      rw [List.nodup_append]
      refine ⟨hInv.keys_nd, List.nodup_singleton _, ?_⟩
      intro k hk hk'
      simp only [List.mem_singleton] at hk'
      exact hkin (hk' ▸ hk)
  · -- vals_nd
    show (table2.map (·.2)).Nodup
    rw [htable2def]
    by_cases hkin : cell.task.id ∈ s.table.map (·.1)
    · obtain ⟨l₁, w, l₂, hsplit⟩ := mem_keys_split hkin
      rw [hsplit, insertA_split (hsplit ▸ hInv.keys_nd)]
      have hold : ((l₁ ++ (cell.task.id, w) :: l₂).map (·.2)).Nodup := by
        rw [← hsplit]
        exact hInv.vals_nd
      have hcnv' : c ∉ (l₁ ++ (cell.task.id, w) :: l₂).map (·.2) := by
        rw [← hsplit]
        exact hcnv
      simp only [List.map_append, List.map_cons] at hold hcnv' ⊢
      have hpermold : (l₁.map (·.2) ++ w :: l₂.map (·.2)).Perm
          (w :: (l₁.map (·.2) ++ l₂.map (·.2))) := List.perm_middle
      have hpermnew : (l₁.map (·.2) ++ c :: l₂.map (·.2)).Perm
          (c :: (l₁.map (·.2) ++ l₂.map (·.2))) := List.perm_middle
      rw [hpermnew.nodup_iff]
      rw [hpermold.nodup_iff] at hold
      rw [hpermold.mem_iff] at hcnv'
      rw [List.nodup_cons] at hold ⊢
      refine ⟨?_, hold.2⟩
      intro hcmem
      exact hcnv' (List.mem_cons_of_mem _ hcmem)
    · rw [insertA_of_not_mem hkin]
      simp only [List.map_append, List.map_cons, List.map_nil]
      rw [List.nodup_append]
      refine ⟨hInv.vals_nd, List.nodup_singleton _, ?_⟩
      intro x hx hx'
      simp only [List.mem_singleton] at hx'
      exact hcnv (hx' ▸ hx)
  · -- disj
    intro x hx e he
    replace hx : x ∈ rest := hx
    replace he : e ∈ table2 := he
    rw [htable2def] at he
    rcases mem_insertA he with rfl | ⟨he', _⟩
    · intro h
      simp only at h
      exact hcnotin (by rw [h]; exact hx)
    · exact hInv.disj x (hrestq x hx) e he'
  · -- child_lt
    intro i icell x hi hx
    replace hi : heap2[i]? = some icell := hi
    show x < heap2.length
    rw [hlen]
    by_cases hipc : i = pc
    · rw [hipc, hget_pc, Option.some.injEq] at hi
      rw [← hi, hpcell2def] at hx
      simp only [List.mem_append, List.mem_singleton] at hx
      rcases hx with hx | rfl
      · exact hInv.child_lt pc pcell x hpcell hx
      · exact hclt
    · by_cases hic : i = c
      · rw [hic, hget_c, Option.some.injEq] at hi
        rw [← hi] at hx
        simp only [hcellFdef, hsubc] at hx
        cases hx
      · rw [hget_other i hipc hic] at hi
        exact hInv.child_lt i icell x hi hx
  · -- child_par
    intro i icell x xcell hi hx hxcell
    replace hi : heap2[i]? = some icell := hi
    replace hxcell : heap2[x]? = some xcell := hxcell
    by_cases hipc : i = pc
    · rw [hipc, hget_pc, Option.some.injEq] at hi
      rw [← hi, hpcell2def] at hx
      simp only [List.mem_append, List.mem_singleton] at hx
      have hitask : icell.task = pcell.task := by rw [← hi]
      rcases hx with hx | rfl
      · -- an old child of the parent cell
        have hxc : x ≠ c := fun h => hcnotchild pc pcell hpcell (h ▸ hx)
        obtain ⟨xcell0, hxcell0, htsk⟩ := htask x xcell hxcell
        rw [htsk, hitask]
        exact hInv.child_par pc pcell x xcell0 hpcell hx hxcell0
      · -- the newly attached child
        rw [hget_c, Option.some.injEq] at hxcell
        rw [← hxcell, hitask]
        show cell.task.parent_id = some pcell.task.id
        rw [hp, hpid]
    · by_cases hic : i = c
      · rw [hic, hget_c, Option.some.injEq] at hi
        rw [← hi] at hx
        simp only [hcellFdef, hsubc] at hx
        cases hx
      · rw [hget_other i hipc hic] at hi
        have hxc : x ≠ c := fun h => hcnotchild i icell hi (h ▸ hx)
        obtain ⟨xcell0, hxcell0, htsk⟩ := htask x xcell hxcell
        rw [htsk]
        exact hInv.child_par i icell x xcell0 hi hx hxcell0
  · -- flag_count
    intro i icell hi
    replace hi : heap2[i]? = some icell := hi
    show (icell.parent = some () ↔ countChild heap2 i = 1) ∧ countChild heap2 i ≤ 1
    rw [hcount i]
    by_cases hic : i = c
    · rw [hic] at hi ⊢
      rw [hget_c, Option.some.injEq] at hi
      subst hi
      simp [hc0]
    · rw [if_neg hic, Nat.add_zero]
      by_cases hipc : i = pc
      · rw [hipc] at hi ⊢
        rw [hget_pc, Option.some.injEq] at hi
        subst hi
        exact hInv.flag_count pc pcell hpcell
      · rw [hget_other i hipc hic] at hi
        exact hInv.flag_count i icell hi
  · -- notqueue_key
    intro i icell hi hni
    replace hi : heap2[i]? = some icell := hi
    replace hni : i ∉ rest := hni
    show icell.task.id ∈ table2.map (·.1)
    by_cases hic : i = c
    · rw [hic, hget_c, Option.some.injEq] at hi
      rw [← hi]
      exact hkeys_new
    · have hinq : i ∉ s.queue := hnotq i hic hni
      obtain ⟨icell0, hicell0, htsk⟩ := htask i icell hi
      rw [htsk]
      exact hkeys_sup _ (hInv.notqueue_key i icell0 hicell0 hinq)
  · -- notqueue_rooted
    intro i icell hi hni
    replace hi : heap2[i]? = some icell := hi
    replace hni : i ∉ rest := hni
    by_cases hic : i = c
    · rw [hic, hget_c, Option.some.injEq] at hi
      obtain ⟨f, hf⟩ := hInv.notqueue_rooted pc pcell hpcell hpcnotq
      refine ⟨f + 1, ?_⟩
      rw [← hi]
      show rootedFuel tasks (f + 1) cell.task = true
      unfold rootedFuel
      rw [hp]
      apply List.any_eq_true.mpr
      refine ⟨pcell.task, task_mem_of_getElem? hInv.heap_tasks hpcell, ?_⟩
      rw [Bool.and_eq_true]
      exact ⟨by simp [hpid], hf⟩
    · have hinq : i ∉ s.queue := hnotq i hic hni
      obtain ⟨icell0, hicell0, htsk⟩ := htask i icell hi
      obtain ⟨f, hf⟩ := hInv.notqueue_rooted i icell0 hicell0 hinq
      exact ⟨f, by rw [htsk]; exact hf⟩
  · -- tv_root
    intro e ecell he hecell hflag
    replace he : e ∈ table2 := he
    rw [htable2def] at he
    replace hecell : heap2[e.2]? = some ecell := hecell
    rcases mem_insertA he with rfl | ⟨he', _⟩
    · rw [hget_c, Option.some.injEq] at hecell
      rw [← hecell] at hflag
      cases hflag
    · have hec : e.2 ≠ c := hInv.disj c hcq e he'
      by_cases hepc : e.2 = pc
      · rw [hepc, hget_pc, Option.some.injEq] at hecell
        have hflag0 : pcell.parent = none := by
          rw [← hecell] at hflag
          exact hflag
        have := hInv.tv_root e pcell (by rw [← hepc] at hpcell; exact he') ?_ hflag0
        · rw [← hecell]
          exact this
        · rw [hepc]
          exact hpcell
      · rw [hget_other e.2 hepc hec] at hecell
        exact hInv.tv_root e ecell he' hecell hflag
  · -- streak: the counter has just been reset
    intro x hx
    replace hx : x ∈ lastN (min 0 rest.length) rest := hx
    have hemp : lastN (min 0 rest.length) rest = [] := by
      simp [lastN_zero]
    rw [hemp] at hx
    cases hx

theorem guard_true_iff {s : BState} :
    guardB s = true ↔ s.queue ≠ [] ∧ s.fails ≤ s.queue.length := by
  simp [guardB, List.isEmpty_iff]

theorem guard_false_iff {s : BState} :
    guardB s = false ↔ s.queue = [] ∨ s.queue.length < s.fails := by
  rw [← Bool.not_eq_true, guard_true_iff]
  constructor
  · intro h
    by_cases hq : s.queue = []
    · exact Or.inl hq
    · right
      by_contra hlt
      exact h ⟨hq, by omega⟩
  · rintro (hq | hlt) ⟨h1, h2⟩
    · exact h1 hq
    · omega

theorem mW_miss {s : BState} {c : Nat} {rest : List Nat} (hqe : s.queue = c :: rest)
    (hg : guardB s = true) : mW (missState s c rest) < mW s := by
  have hfl := (guard_true_iff.mp hg).2
  have hlen : s.queue.length = rest.length + 1 := by rw [hqe]; simp
  have hlen2 : (missState s c rest).queue.length = rest.length + 1 := by simp [missState]
  have hf2 : (missState s c rest).fails = s.fails + 1 := rfl
  rw [hlen] at hfl
  unfold mW
  rw [hlen, hlen2, hf2]
  omega

theorem mW_attach {s : BState} {c : Nat} {rest : List Nat} {cell : Cell} {pc : Nat}
    {pcell : Cell} (hqe : s.queue = c :: rest) :
    mW (attachState s c rest cell pc pcell) < mW s := by
  have hlen : s.queue.length = rest.length + 1 := by rw [hqe]; simp
  have hlen2 : (attachState s c rest cell pc pcell).queue.length = rest.length := rfl
  have hf2 : (attachState s c rest cell pc pcell).fails = 0 := rfl
  unfold mW
  rw [hlen, hlen2, hf2]
  have key : rest.length * (rest.length + 2) + (rest.length + 3)
      ≤ (rest.length + 1) * (rest.length + 1 + 2) := by
    have h1 : (rest.length + 1) * (rest.length + 1 + 2)
        = rest.length * (rest.length + 2) + (2 * rest.length + 3) := by ring
    omega
  omega

theorem mW_pos {s : BState} (hg : guardB s = true) : 1 ≤ mW s := by
  obtain ⟨hq, hfl⟩ := guard_true_iff.mp hg
  have : 1 ≤ s.queue.length := by
    cases hqv : s.queue with
    | nil => exact absurd hqv hq
    | cons a l => simp [hqv]
  simp only [mW]
  omega

/-- With fuel at least the variant, the loop reaches a guard-violating
state, never panics, and preserves the invariant. -/
theorem run_halts {tasks : List Task} (W : Nat) :
    ∀ {s : BState}, Inv tasks s → mW s ≤ W →
      ∃ s2, runLoop W s = some s2 ∧ guardB s2 = false ∧ Inv tasks s2 := by
  induction W with
  | zero =>
    intro s hInv hle
    cases hg : guardB s with
    | false => exact ⟨s, by simp [runLoop, hg], hg, hInv⟩
    | true => exact absurd (mW_pos hg) (by omega)
  | succ W ih =>
    intro s hInv hle
    cases hg : guardB s with
    | false => exact ⟨s, by simp [runLoop, hg], hg, hInv⟩
    | true =>
      obtain ⟨c, rest, cell, p, hqe, hcell, hp, hbr⟩ := loopStep_spec hInv hg
      rcases hbr with ⟨hlk, hstep⟩ | ⟨pc, pcell, hlk, hpcell, hne, hmem, hstep⟩
      · have hInv2 := inv_miss hInv hqe hcell hp hlk
        have hdec := mW_miss hqe hg
        obtain ⟨s2, hrun, hg2, hInv3⟩ := ih hInv2 (by omega)
        exact ⟨s2, by simp [runLoop, hg, hstep, hrun], hg2, hInv3⟩
      · have hInv2 := inv_attach hInv hqe hcell hp hpcell hne hmem
        have hdec := @mW_attach s c rest cell pc pcell hqe
        obtain ⟨s2, hrun, hg2, hInv3⟩ := ih hInv2 (by omega)
        exact ⟨s2, by simp [runLoop, hg, hstep, hrun], hg2, hInv3⟩

theorem mem_candIdxs {tasks : List Task} {off x : Nat} :
    x ∈ candIdxs tasks off ↔ ∃ j, j < tasks.length ∧ x = off + j ∧
      ∃ t, tasks[j]? = some t ∧ t.parent_id.isSome = true := by
  induction tasks generalizing off with
  | nil => simp [candIdxs]
  | cons t ts ih =>
    simp only [candIdxs, List.mem_append]
    constructor
    · intro h
      rcases h with h | h
      · cases hps : t.parent_id.isSome with
        | false => rw [hps] at h; simp at h
        | true =>
          rw [hps] at h
          simp only [if_pos, List.mem_singleton] at h
          subst h
          exact ⟨0, by simp, by omega, t, by simp, hps⟩
      · obtain ⟨j, hj, hx, t2, ht2, hps⟩ := ih.mp h
        refine ⟨j + 1, by simp; omega, by omega, t2, by simpa using ht2, hps⟩
    · rintro ⟨j, hj, rfl, t2, ht2, hps⟩
      cases j with
      | zero =>
        simp only [List.getElem?_cons_zero, Option.some.injEq] at ht2
        subst ht2
        left
        simp [hps]
      | succ j2 =>
        right
        refine ih.mpr ⟨j2, ?_, by omega, t2, by simpa using ht2, hps⟩
        simp only [List.length_cons] at hj
        omega

theorem mem_rootEntries {tasks : List Task} {off : Nat} {e : Nat × Nat} :
    e ∈ rootEntries tasks off ↔ ∃ j, j < tasks.length ∧ e.2 = off + j ∧
      ∃ t, tasks[j]? = some t ∧ t.parent_id = none ∧ t.id = e.1 := by
  induction tasks generalizing off with
  | nil => simp [rootEntries]
  | cons t ts ih =>
    simp only [rootEntries, List.mem_append]
    constructor
    · intro h
      rcases h with h | h
      · cases hps : t.parent_id.isNone with
        | false => rw [hps] at h; simp at h
        | true =>
          rw [hps] at h
          simp only [if_pos, List.mem_singleton] at h
          subst h
          refine ⟨0, by simp, by omega, t, by simp, ?_, rfl⟩
          exact Option.isNone_iff_eq_none.mp hps
      · obtain ⟨j, hj, hx, t2, ht2, hpn, hid⟩ := ih.mp h
        refine ⟨j + 1, by simp; omega, by omega, t2, by simpa using ht2, hpn, hid⟩
    · rintro ⟨j, hj, he2, t2, ht2, hpn, hid⟩
      cases j with
      | zero =>
        simp only [List.getElem?_cons_zero, Option.some.injEq] at ht2
        left
        rw [← ht2] at hpn hid
        have hn : t.parent_id.isNone = true := by simp [hpn]
        rw [hn]
        simp only [if_pos, List.mem_singleton]
        have hee : e = (e.1, e.2) := rfl
        rw [hee, hid, he2]
        simp
      | succ j2 =>
        right
        refine ih.mpr ⟨j2, ?_, by omega, t2, by simpa using ht2, hpn, hid⟩
        simp only [List.length_cons] at hj
        omega

theorem candIdxs_nodup (tasks : List Task) (off : Nat) : (candIdxs tasks off).Nodup := by
  induction tasks generalizing off with
  | nil => simp [candIdxs]
  | cons t ts ih =>
    cases hps : t.parent_id.isSome with
    | false => simpa [candIdxs, hps] using ih (off + 1)
    | true =>
      simp only [candIdxs, hps, if_pos, List.singleton_append, List.nodup_cons]
      refine ⟨?_, ih (off + 1)⟩
      intro hmem
      obtain ⟨j, _, hoff, _⟩ := mem_candIdxs.mp hmem
      omega

theorem rootEntries_vals_nodup (tasks : List Task) (off : Nat) :
    ((rootEntries tasks off).map (·.2)).Nodup := by
  induction tasks generalizing off with
  | nil => simp [rootEntries]
  | cons t ts ih =>
    cases hps : t.parent_id.isNone with
    | false => simpa [rootEntries, hps] using ih (off + 1)
    | true =>
      simp only [rootEntries, hps, if_pos, List.singleton_append, List.map_cons,
        List.nodup_cons]
      refine ⟨?_, ih (off + 1)⟩
      intro hmem
      obtain ⟨e, he, hev⟩ := List.mem_map.mp hmem
      obtain ⟨j, _, hoff, _⟩ := mem_rootEntries.mp he
      omega

theorem keys_nd_insertA {l : List (Nat × Nat)} {k v : Nat}
    (h : (l.map (·.1)).Nodup) : ((insertA l k v).map (·.1)).Nodup := by
  by_cases hk : k ∈ l.map (·.1)
  · rw [keys_insertA_of_mem hk]
    exact h
  · rw [insertA_of_not_mem hk]
    simp only [List.map_append, List.map_cons, List.map_nil]
    rw [List.nodup_append]
    refine ⟨h, List.nodup_singleton _, ?_⟩
    intro x hx hx2
    simp only [List.mem_singleton] at hx2
    exact hk (hx2 ▸ hx)

theorem vals_nd_insertA {l : List (Nat × Nat)} {k v : Nat}
    (hknd : (l.map (·.1)).Nodup) (hvnd : (l.map (·.2)).Nodup)
    (hv : v ∉ l.map (·.2)) : ((insertA l k v).map (·.2)).Nodup := by
  by_cases hk : k ∈ l.map (·.1)
  · obtain ⟨l₁, w, l₂, hsplit⟩ := mem_keys_split hk
    rw [hsplit, insertA_split (hsplit ▸ hknd)]
    rw [hsplit] at hvnd hv
    simp only [List.map_append, List.map_cons] at hvnd hv ⊢
    have hpermold : (l₁.map (·.2) ++ w :: l₂.map (·.2)).Perm
        (w :: (l₁.map (·.2) ++ l₂.map (·.2))) := List.perm_middle
    have hpermnew : (l₁.map (·.2) ++ v :: l₂.map (·.2)).Perm
        (v :: (l₁.map (·.2) ++ l₂.map (·.2))) := List.perm_middle
    rw [hpermnew.nodup_iff]
    rw [hpermold.nodup_iff] at hvnd
    rw [hpermold.mem_iff] at hv
    rw [List.nodup_cons] at hvnd ⊢
    refine ⟨?_, hvnd.2⟩
    intro hmem
    exact hv (List.mem_cons_of_mem _ hmem)
  · rw [insertA_of_not_mem hk]
    simp only [List.map_append, List.map_cons, List.map_nil]
    rw [List.nodup_append]
    refine ⟨hvnd, List.nodup_singleton _, ?_⟩
    intro x hx hx2
    simp only [List.mem_singleton] at hx2
    exact hv (hx2 ▸ hx)

theorem keys_sub_insertA {l : List (Nat × Nat)} {k v k2 : Nat}
    (h : k2 ∈ l.map (·.1)) : k2 ∈ (insertA l k v).map (·.1) := by
  by_cases hk : k ∈ l.map (·.1)
  · rw [keys_insertA_of_mem hk]
    exact h
  · rw [insertA_of_not_mem hk]
    simp only [List.map_append, List.mem_append]
    exact Or.inl h

theorem key_self_insertA {l : List (Nat × Nat)} {k v : Nat} :
    k ∈ (insertA l k v).map (·.1) := by
  by_cases hk : k ∈ l.map (·.1)
  · rw [keys_insertA_of_mem hk]
    exact hk
  · rw [insertA_of_not_mem hk]
    simp

/-- Facts about seeding the lookup table by successive `HashMap::insert`
calls on an initially empty map. -/
theorem foldIns_facts (entries : List (Nat × Nat))
    (hvnd : (entries.map (·.2)).Nodup) :
    ((entries.foldl (fun tb e => insertA tb e.1 e.2) []).map (·.1)).Nodup ∧
    ((entries.foldl (fun tb e => insertA tb e.1 e.2) []).map (·.2)).Nodup ∧
    (∀ e ∈ entries.foldl (fun tb e => insertA tb e.1 e.2) [], e ∈ entries) ∧
    (∀ k, k ∈ entries.map (·.1) →
      k ∈ (entries.foldl (fun tb e => insertA tb e.1 e.2) []).map (·.1)) := by
  induction entries using List.reverseRecOn with
  | nil => simp
  | append_singleton es e ih =>
    rw [List.foldl_append]
    simp only [List.foldl_cons, List.foldl_nil]
    have hvnd2 : (es.map (·.2)).Nodup := by
      simp only [List.map_append, List.nodup_append] at hvnd
      exact hvnd.1
    have hfresh : e.2 ∉ (es.map (·.2)) := by
      simp only [List.map_append, List.nodup_append] at hvnd
      intro hmem
      exact hvnd.2.2 hmem (by simp)
    obtain ⟨hk1, hv1, hsub1, hkeys1⟩ := ih hvnd2
    set tb0 := es.foldl (fun tb e => insertA tb e.1 e.2) [] with htb0
    have hfresh0 : e.2 ∉ tb0.map (·.2) := by
      intro hmem
      obtain ⟨e2, he2, hev⟩ := List.mem_map.mp hmem
      exact hfresh (List.mem_map.mpr ⟨e2, hsub1 e2 he2, hev⟩)
    refine ⟨keys_nd_insertA hk1, vals_nd_insertA hk1 hv1 hfresh0, ?_, ?_⟩
    · intro e2 he2
      rcases mem_insertA he2 with rfl | ⟨he2, _⟩
      · simp
      · simp only [List.mem_append]
        exact Or.inl (hsub1 e2 he2)
    · intro k hk
      simp only [List.map_append, List.map_cons, List.map_nil, List.mem_append,
        List.mem_singleton] at hk
      rcases hk with hk | hk
      · exact keys_sub_insertA (hkeys1 k hk)
      · rw [hk]
        exact key_self_insertA

theorem countChild_init (tasks : List Task) (x : Nat) :
    countChild (tasks.map (fun t => { task := t, parent := none, subtasks := [] : Cell })) x
      = 0 := by
  induction tasks with
  | nil => simp [countChild]
  | cons t ts ih =>
    rw [List.map_cons, countChild_cons]
    simp [ih]

/-- The invariant holds on the state `from_tasks` builds before the
retry loop. -/
theorem init_inv (tasks : List Task) : Inv tasks (initState tasks) := by
  have hvnd := rootEntries_vals_nodup tasks 0
  obtain ⟨hknd, hvnd2, hsub, hkeys⟩ := foldIns_facts (rootEntries tasks 0) hvnd
  have hlen : (initState tasks).heap.length = tasks.length := by simp [initState]
  have hheap : ∀ (i : Nat) (cl : Cell), (initState tasks).heap[i]? = some cl →
      tasks[i]? = some cl.task ∧ cl.parent = none ∧ cl.subtasks = [] := by
    intro i cl h
    simp only [initState, List.getElem?_map] at h
    cases ht : tasks[i]? with
    | none => rw [ht] at h; simp at h
    | some t =>
      rw [ht] at h
      simp only [Option.map_some', Option.some.injEq] at h
      rw [← h]
      exact ⟨rfl, rfl, rfl⟩
  have hqmem : ∀ x, x ∈ (initState tasks).queue ↔
      ∃ t, tasks[x]? = some t ∧ t.parent_id.isSome = true := by
    intro x
    show x ∈ candIdxs tasks 0 ↔ _
    rw [mem_candIdxs]
    constructor
    · rintro ⟨j, hj, rfl, t, ht, hps⟩
      exact ⟨t, by simpa using ht, hps⟩
    · rintro ⟨t, ht, hps⟩
      have hx : x < tasks.length := (List.getElem?_eq_some_iff.mp ht).1
      exact ⟨x, hx, by omega, t, ht, hps⟩
  have htbl : ∀ e, e ∈ (initState tasks).table → e.2 < tasks.length ∧
      ∃ t, tasks[e.2]? = some t ∧ t.parent_id = none ∧ t.id = e.1 := by
    intro e he
    have hre := hsub e he
    obtain ⟨j, hj, he2, t, ht, hpn, hid⟩ := mem_rootEntries.mp hre
    have hej : e.2 = j := by omega
    rw [hej]
    exact ⟨hj, t, ht, hpn, hid⟩
  have hnone : ∀ (i : Nat) (cl : Cell), (initState tasks).heap[i]? = some cl →
      i ∉ (initState tasks).queue → cl.task.parent_id = none := by
    intro i cl hcl hni
    obtain ⟨ht, _, _⟩ := hheap i cl hcl
    by_contra hcon
    have hps : cl.task.parent_id.isSome = true :=
      Option.ne_none_iff_isSome.mp hcon
    exact hni ((hqmem i).mpr ⟨cl.task, ht, hps⟩)
  refine ⟨?_, ?_, ?_, ?_, ?_, ?_, ?_, ?_, ?_, ?_, ?_, ?_, ?_, ?_, ?_, ?_⟩
  · -- heap_tasks
    show (tasks.map (fun t => { task := t, parent := none, subtasks := [] : Cell })).map
      Cell.task = tasks
    rw [List.map_map]
    conv_rhs => rw [show tasks = tasks.map id from (List.map_id tasks).symm]
    apply List.map_congr_left
    intro t _
    rfl
  · -- queue_lt
    intro x hx
    obtain ⟨t, ht, _⟩ := (hqmem x).mp hx
    rw [hlen]
    exact (List.getElem?_eq_some_iff.mp ht).1
  · -- queue_cell
    intro x cl hx hcl
    obtain ⟨t, ht, hps⟩ := (hqmem x).mp hx
    obtain ⟨ht2, hpn, hsub2⟩ := hheap x cl hcl
    rw [ht, Option.some.injEq] at ht2
    refine ⟨?_, hpn, hsub2⟩
    rw [ht2] at hps
    exact hps
  · -- queue_nd
    exact candIdxs_nodup tasks 0
  · -- tv_lt
    intro e he
    rw [hlen]
    exact (htbl e he).1
  · -- tv_key
    intro e cl he hcl
    obtain ⟨_, t, ht, _, hid⟩ := htbl e he
    obtain ⟨ht2, _, _⟩ := hheap e.2 cl hcl
    rw [ht, Option.some.injEq] at ht2
    rw [← ht2]
    exact hid
  · -- keys_nd
    exact hknd
  · -- vals_nd
    exact hvnd2
  · -- disj
    intro x hx e he hex
    obtain ⟨t, ht, hps⟩ := (hqmem x).mp hx
    obtain ⟨_, t2, ht2, hpn, _⟩ := htbl e he
    rw [hex, ht, Option.some.injEq] at ht2
    rw [ht2, hpn] at hps
    simp at hps
  · -- child_lt
    intro i cl x hcl hx
    obtain ⟨_, _, hsub2⟩ := hheap i cl hcl
    rw [hsub2] at hx
    cases hx
  · -- child_par
    intro i cl x xcl hcl hx _
    obtain ⟨_, _, hsub2⟩ := hheap i cl hcl
    rw [hsub2] at hx
    cases hx
  · -- flag_count
    intro i cl hcl
    obtain ⟨_, hpn, _⟩ := hheap i cl hcl
    have hcc : countChild (initState tasks).heap i = 0 := countChild_init tasks i
    rw [hcc, hpn]
    refine ⟨⟨fun h => ?_, fun h => ?_⟩, by omega⟩
    · exact Option.noConfusion h
    · exact absurd h (by decide)
  · -- notqueue_key
    intro i cl hcl hni
    obtain ⟨ht, _, _⟩ := hheap i cl hcl
    have hpnone := hnone i cl hcl hni
    have hmem : (cl.task.id, i) ∈ rootEntries tasks 0 := by
      apply mem_rootEntries.mpr
      have hilt : i < tasks.length := (List.getElem?_eq_some_iff.mp ht).1
      exact ⟨i, hilt, by omega, cl.task, ht, hpnone, rfl⟩
    exact hkeys _ (List.mem_map.mpr ⟨(cl.task.id, i), hmem, rfl⟩)
  · -- notqueue_rooted
    intro i cl hcl hni
    have hpnone := hnone i cl hcl hni
    exact ⟨1, by simp [rootedFuel, hpnone]⟩
  · -- tv_root
    intro e cl he hcl _
    obtain ⟨_, t, ht, hpn, _⟩ := htbl e he
    obtain ⟨ht2, _, _⟩ := hheap e.2 cl hcl
    rw [ht, Option.some.injEq] at ht2
    rw [← ht2]
    exact hpn
  · -- streak
    intro x hx
    have hf0 : (initState tasks).fails = 0 := rfl
    rw [hf0] at hx
    simp only [Nat.min_comm, Nat.min_zero, lastN_zero] at hx
    cases hx

/-- The fuel `from_tasks` supplies drives the loop to a halted state
that satisfies the invariant; the loop itself never panics. -/
theorem from_tasks_run (tasks : List Task) :
    ∃ s2, runLoop (loopFuel (initState tasks)) (initState tasks) = some s2 ∧
      guardB s2 = false ∧ Inv tasks s2 := by
  apply run_halts
  · exact init_inv tasks
  · unfold mW loopFuel
    omega

/-- C4: for every finite input sequence of task records, resolvable or
not, the candidate-requeue loop of `from_tasks` terminates: run with
the fuel `from_tasks` supplies it reaches a state in which the loop
guard fails (and never hits a modelled panic on the way). -/
theorem claim4_loop_terminates (tasks : List Task) :
    ∃ s2, runLoop (loopFuel (initState tasks)) (initState tasks) = some s2 ∧
      guardB s2 = false := by
  obtain ⟨s2, hrun, hg, _⟩ := from_tasks_run tasks
  exact ⟨s2, hrun, hg⟩

/-- C3 (amended): inside the retry loop the miss counter increments on
every failed parent lookup and is reset to zero exactly by a successful
attach (never merely by starting a new iteration); the loop terminates
as soon as the miss counter exceeds (not: reaches) the current queue
length, the guard being `fails <= queue length`. -/
theorem claim3_amended (s : BState) (c : Nat) (rest : List Nat) (cell : Cell) (p : Nat)
    (hqe : s.queue = c :: rest) (hcell : s.heap[c]? = some cell)
    (hp : cell.task.parent_id = some p) :
    (lookupA s.table p = none →
      loopStep s = some (missState s c rest) ∧
      (missState s c rest).fails = s.fails + 1) ∧
    (∀ (pc : Nat) (pcell : Cell), lookupA s.table p = some pc →
      (s.heap.set c { cell with parent := some () })[pc]? = some pcell →
      loopStep s = some (attachState s c rest cell pc pcell) ∧
      (attachState s c rest cell pc pcell).fails = 0) ∧
    (guardB s = false ↔ s.queue = [] ∨ s.queue.length < s.fails) := by
  refine ⟨?_, ?_, guard_false_iff⟩
  · intro hlk
    refine ⟨?_, rfl⟩
    simp only [loopStep, hqe, hcell, hp, hlk, missState]
  · intro pc pcell hlk hpcell
    refine ⟨?_, rfl⟩
    simp only [loopStep, hqe, hcell, hp, hlk, hpcell, attachState]

theorem claim3_amended_witness :
    loopStep (initState [mkTask 2 (some 1)]) =
      some (missState (initState [mkTask 2 (some 1)]) 0 []) := by
  have h := claim3_amended (initState [mkTask 2 (some 1)]) 0 []
    { task := mkTask 2 (some 1), parent := none, subtasks := [] } 1
    (by decide) (by decide) (by decide)
  exact (h.1 (by decide)).1

/-- C3 counterexample: on input `[{2, parent 1}]`, after the one
candidate has missed once the miss counter equals the current queue
length, yet the loop guard is still true and the next iteration runs
(the loop only stops when the counter exceeds the queue length), so
the claim "terminates as soon as the miss counter reaches the current
queue length" is false on the code. -/
theorem claim3_counterexample :
    loopStep (initState [mkTask 2 (some 1)]) = some c3State ∧
    c3State.fails = c3State.queue.length ∧ c3State.queue ≠ [] ∧
    guardB c3State = true ∧ loopStep c3State ≠ none := by
  decide

/-- When the loop halts with candidates left, the whole queue is one
streak of consecutive misses: no leftover candidate's parent is in the
table. -/
theorem halted_streak {tasks : List Task} {s : BState} (hInv : Inv tasks s)
    (hg : guardB s = false) :
    ∀ c ∈ s.queue, ∀ (cell : Cell), s.heap[c]? = some cell →
      ∀ (p : Nat), cell.task.parent_id = some p → lookupA s.table p = none := by
  intro c hc cell hcell p hp
  rcases guard_false_iff.mp hg with hq | hlt
  · rw [hq] at hc
    cases hc
  · have hmin : min s.fails s.queue.length = s.queue.length := by omega
    have hfull : lastN (min s.fails s.queue.length) s.queue = s.queue := by
      rw [hmin]
      exact lastN_of_le (le_refl _)
    exact hInv.streak c (by rw [hfull]; exact hc) cell hcell p hp

/-- At a halted state, every record whose parent chain resolves has
been taken out of the queue, and its identifier is a table key. -/
theorem rooted_attached {tasks : List Task} {s : BState} (hInv : Inv tasks s)
    (hg : guardB s = false) :
    ∀ (f : Nat) (t : Task), t ∈ tasks → rootedFuel tasks f t = true →
      (∀ (i : Nat) (cell : Cell), s.heap[i]? = some cell → cell.task = t →
        i ∉ s.queue) ∧ t.id ∈ s.table.map (·.1) := by
  intro f
  induction f with
  | zero =>
    intro t _ hr
    simp [rootedFuel] at hr
  | succ f ih =>
    intro t ht hr
    unfold rootedFuel at hr
    cases hpid : t.parent_id with
    | none =>
      have hnotq : ∀ (i : Nat) (cell : Cell), s.heap[i]? = some cell →
          cell.task = t → i ∉ s.queue := by
        intro i cell hcell htsk hq
        obtain ⟨hps, _, _⟩ := hInv.queue_cell i cell hq hcell
        rw [htsk, hpid] at hps
        cases hps
      refine ⟨hnotq, ?_⟩
      obtain ⟨i, cell, hcell, htsk⟩ := exists_cell_of_mem hInv.heap_tasks ht
      have hk := hInv.notqueue_key i cell hcell (hnotq i cell hcell htsk)
      rw [htsk] at hk
      exact hk
    | some p =>
      rw [hpid] at hr
      obtain ⟨u, hu, hup⟩ := List.any_eq_true.mp hr
      rw [Bool.and_eq_true, beq_iff_eq] at hup
      obtain ⟨huid, hur⟩ := hup
      obtain ⟨_, hukeys⟩ := ih u hu hur
      have hpkeys : p ∈ s.table.map (·.1) := huid ▸ hukeys
      have hlk : (lookupA s.table p).isSome := lookupA_isSome_of_mem hpkeys
      have hnotq : ∀ (i : Nat) (cell : Cell), s.heap[i]? = some cell →
          cell.task = t → i ∉ s.queue := by
        intro i cell hcell htsk hq
        have hnone := halted_streak hInv hg i hq cell hcell p (by rw [htsk, hpid])
        rw [hnone] at hlk
        cases hlk
      refine ⟨hnotq, ?_⟩
      obtain ⟨i, cell, hcell, htsk⟩ := exists_cell_of_mem hInv.heap_tasks ht
      have hk := hInv.notqueue_key i cell hcell (hnotq i cell hcell htsk)
      rw [htsk] at hk
      exact hk

/-- At a halted state the leftover queue consists of exactly the cells
of the records whose parent chain never resolves. -/
theorem queue_char {tasks : List Task} {s : BState} (hInv : Inv tasks s)
    (hg : guardB s = false) (i : Nat) :
    i ∈ s.queue ↔ i < s.heap.length ∧ ∀ (cell : Cell), s.heap[i]? = some cell →
      ¬∃ f, rootedFuel tasks f cell.task = true := by
  constructor
  · intro hq
    refine ⟨hInv.queue_lt i hq, ?_⟩
    rintro cell hcell ⟨f, hf⟩
    have hmem : cell.task ∈ tasks := task_mem_of_getElem? hInv.heap_tasks hcell
    exact (rooted_attached hInv hg f cell.task hmem hf).1 i cell hcell rfl hq
  · rintro ⟨hlt, hcell⟩
    by_contra hq
    obtain ⟨cell, hc⟩ : ∃ cell, s.heap[i]? = some cell := by
      rw [List.getElem?_eq_getElem hlt]
      exact ⟨_, rfl⟩
    exact hcell cell hc (hInv.notqueue_rooted i cell hc hq)

theorem rootedFuel_mono {tasks : List Task} :
    ∀ {f g : Nat}, f ≤ g → ∀ {t : Task}, rootedFuel tasks f t = true →
      rootedFuel tasks g t = true := by
  intro f
  induction f with
  | zero =>
    intro g _ t h
    simp [rootedFuel] at h
  | succ f ih =>
    intro g hfg t h
    obtain ⟨g2, rfl⟩ : ∃ g2, g = g2 + 1 := ⟨g - 1, by omega⟩
    unfold rootedFuel at h ⊢
    cases hpid : t.parent_id with
    | none => rfl
    | some p =>
      rw [hpid] at h
      obtain ⟨u, hu, hup⟩ := List.any_eq_true.mp h
      rw [Bool.and_eq_true, beq_iff_eq] at hup
      apply List.any_eq_true.mpr
      refine ⟨u, hu, ?_⟩
      rw [Bool.and_eq_true, beq_iff_eq]
      exact ⟨hup.1, ih (by omega) hup.2⟩

theorem rootedSet_mono {tasks : List Task} {f g : Nat} (h : f ≤ g) :
    rootedSet tasks f ⊆ rootedSet tasks g := by
  intro t ht
  rw [rootedSet, Finset.mem_filter] at ht ⊢
  exact ⟨ht.1, rootedFuel_mono h ht.2⟩

theorem rootedSet_step {tasks : List Task} {f : Nat}
    (h : rootedSet tasks f = rootedSet tasks (f + 1)) :
    rootedSet tasks (f + 1) = rootedSet tasks (f + 2) := by
  apply Finset.Subset.antisymm (rootedSet_mono (by omega))
  intro t ht
  rw [rootedSet, Finset.mem_filter] at ht ⊢
  refine ⟨ht.1, ?_⟩
  obtain ⟨htm, hr⟩ := ht
  show rootedFuel tasks (f + 1) t = true
  have hr2 : rootedFuel tasks (f + 1 + 1) t = true := hr
  unfold rootedFuel at hr2 ⊢
  cases hpid : t.parent_id with
  | none => rfl
  | some p =>
    rw [hpid] at hr2
    obtain ⟨u, hu, hup⟩ := List.any_eq_true.mp hr2
    rw [Bool.and_eq_true, beq_iff_eq] at hup
    have humem : u ∈ rootedSet tasks (f + 1) := by
      rw [rootedSet, Finset.mem_filter]
      exact ⟨List.mem_toFinset.mpr hu, hup.2⟩
    rw [← h] at humem
    rw [rootedSet, Finset.mem_filter] at humem
    apply List.any_eq_true.mpr
    refine ⟨u, hu, ?_⟩
    rw [Bool.and_eq_true, beq_iff_eq]
    exact ⟨hup.1, humem.2⟩

theorem rootedSet_chain_card {tasks : List Task} :
    ∀ m, (∀ j < m, rootedSet tasks j ≠ rootedSet tasks (j + 1)) →
      m ≤ (rootedSet tasks m).card := by
  intro m
  induction m with
  | zero => intro _; omega
  | succ m ih =>
    intro h
    have h1 := ih (fun j hj => h j (by omega))
    have hne := h m (by omega)
    have hss : rootedSet tasks m ⊂ rootedSet tasks (m + 1) :=
      Finset.ssubset_iff_subset_ne.mpr ⟨rootedSet_mono (by omega), hne⟩
    have := Finset.card_lt_card hss
    omega

theorem rootedSet_stab {tasks : List Task} :
    ∃ j, j ≤ tasks.toFinset.card ∧ rootedSet tasks j = rootedSet tasks (j + 1) := by
  by_contra h
  push_neg at h
  have hchain := @rootedSet_chain_card tasks (tasks.toFinset.card + 1)
    (fun j hj => h j (by omega))
  have hle : (rootedSet tasks (tasks.toFinset.card + 1)).card ≤ tasks.toFinset.card :=
    Finset.card_le_card (Finset.filter_subset _ _)
  omega

theorem rootedSet_stable {tasks : List Task} {j : Nat}
    (hj : rootedSet tasks j = rootedSet tasks (j + 1)) :
    ∀ k, rootedSet tasks (j + k) = rootedSet tasks j := by
  have hstrong : ∀ k, rootedSet tasks (j + k) = rootedSet tasks j ∧
      rootedSet tasks (j + k) = rootedSet tasks (j + k + 1) := by
    intro k
    induction k with
    | zero => exact ⟨rfl, hj⟩
    | succ k ih =>
      obtain ⟨h1, h2⟩ := ih
      have h3 : rootedSet tasks (j + k + 1) = rootedSet tasks (j + k + 2) := by
        have := rootedSet_step h2
        exact this
      refine ⟨?_, ?_⟩
      · show rootedSet tasks (j + k + 1) = rootedSet tasks j
        rw [← h2, h1]
      · show rootedSet tasks (j + k + 1) = rootedSet tasks (j + k + 1 + 1)
        exact h3
  exact fun k => (hstrong k).1

/-- Resolvability of an input record within any number of steps implies
resolvability within `tasks.length` steps: the cap in `rooted` loses
nothing. -/
theorem rooted_iff_exists_fuel {tasks : List Task} {t : Task} (ht : t ∈ tasks) :
    rooted tasks t = true ↔ ∃ f, rootedFuel tasks f t = true := by
  constructor
  · intro h
    exact ⟨tasks.length, h⟩
  · rintro ⟨f, hf⟩
    obtain ⟨j, hjle, hjstab⟩ := @rootedSet_stab tasks
    have hcard : tasks.toFinset.card ≤ tasks.length := by
      rw [List.card_toFinset]
      exact List.Sublist.length_le (List.dedup_sublist tasks)
    by_cases hfn : f ≤ tasks.length
    · exact rootedFuel_mono hfn hf
    · have hmem : t ∈ rootedSet tasks f := by
        rw [rootedSet, Finset.mem_filter]
        exact ⟨List.mem_toFinset.mpr ht, hf⟩
      have hf_eq : rootedSet tasks f = rootedSet tasks j := by
        have : f = j + (f - j) := by omega
        rw [this]
        exact rootedSet_stable hjstab (f - j)
      have hn_eq : rootedSet tasks tasks.length = rootedSet tasks j := by
        have : tasks.length = j + (tasks.length - j) := by omega
        rw [this]
        exact rootedSet_stable hjstab (tasks.length - j)
      rw [hf_eq, ← hn_eq] at hmem
      rw [rootedSet, Finset.mem_filter] at hmem
      exact hmem.2

/-- Counting indices of a list whose entry satisfies a predicate. -/
theorem length_filter_range (l : List Task) (P : Task → Bool) :
    ((List.range l.length).filter (fun i =>
      match l[i]? with
      | some a => P a
      | none => false)).length = (l.filter P).length := by
  induction l using List.reverseRecOn with
  | nil => simp
  | append_singleton l a ih =>
    rw [List.length_append, List.length_singleton, List.range_succ, List.filter_append,
      List.filter_append, List.length_append, List.length_append]
    have h1 : (List.range l.length).filter (fun i =>
        match (l ++ [a])[i]? with
        | some b => P b
        | none => false) = (List.range l.length).filter (fun i =>
        match l[i]? with
        | some b => P b
        | none => false) := by
      apply List.filter_congr
      intro i hi
      have hilt : i < l.length := List.mem_range.mp hi
      rw [List.getElem?_append_left hilt]
    have h2 : ([l.length].filter (fun i =>
        match (l ++ [a])[i]? with
        | some b => P b
        | none => false)).length = ([a].filter P).length := by
      have hget : (l ++ [a])[l.length]? = some a := by
        rw [List.getElem?_append_right (le_refl _)]
        simp
      simp only [List.filter_cons, List.filter_nil, hget]
      cases hP : P a <;> simp
    rw [h1, ih, h2]

/-- At a halted state the queue length equals the number of input
records whose declared parent is transitively unresolvable. -/
theorem queue_len_count {tasks : List Task} {s : BState} (hInv : Inv tasks s)
    (hg : guardB s = false) :
    s.queue.length = (tasks.filter (fun t => !(rooted tasks t))).length := by
  have hlen : s.heap.length = tasks.length := by
    rw [← hInv.heap_tasks, List.length_map]
  have hget : ∀ (i : Nat), tasks[i]? = (s.heap[i]?).map Cell.task := by
    intro i
    rw [← hInv.heap_tasks, List.getElem?_map]
  set B := (List.range tasks.length).filter (fun i =>
      match tasks[i]? with
      | some a => !(rooted tasks a)
      | none => false) with hB
  have hmemB : ∀ i, i ∈ B ↔ i < tasks.length ∧ ∃ t, tasks[i]? = some t ∧
      rooted tasks t = false := by
    intro i
    rw [hB, List.mem_filter, List.mem_range]
    constructor
    · rintro ⟨hlt, hmatch⟩
      refine ⟨hlt, ?_⟩
      cases hti : tasks[i]? with
      | none => rw [hti] at hmatch; simp at hmatch
      | some t =>
        rw [hti] at hmatch
        simp only [Bool.not_eq_true'] at hmatch
        exact ⟨t, rfl, hmatch⟩
    · rintro ⟨hlt, t, hti, hroot⟩
      refine ⟨hlt, ?_⟩
      rw [hti]
      simp [hroot]
  have hiff : ∀ i, i ∈ s.queue ↔ i ∈ B := by
    intro i
    rw [queue_char hInv hg, hmemB]
    constructor
    · rintro ⟨hlt, hno⟩
      obtain ⟨cell, hcell⟩ : ∃ cell, s.heap[i]? = some cell := by
        rw [List.getElem?_eq_getElem hlt]
        exact ⟨_, rfl⟩
      have hti2 : tasks[i]? = some cell.task := by
        rw [hget i, hcell]
        rfl
      refine ⟨by omega, cell.task, hti2, ?_⟩
      have hne := hno cell hcell
      rw [Bool.eq_false_iff]
      intro hroot
      exact hne ⟨tasks.length, hroot⟩
    · rintro ⟨hlt, t, hti, hroot⟩
      refine ⟨by omega, ?_⟩
      intro cell hcell hex
      have hti0 := hti
      have htc : cell.task = t := by
        rw [hget i, hcell] at hti0
        simp only [Option.map_some', Option.some.injEq] at hti0
        exact hti0
      have htm : t ∈ tasks := List.getElem?_mem hti
      have := (rooted_iff_exists_fuel htm).mpr (htc ▸ hex)
      rw [this] at hroot
      cases hroot
  have hndB : B.Nodup := List.Nodup.filter _ (List.nodup_range _)
  have htofin : s.queue.toFinset = B.toFinset := by
    apply Finset.ext
    intro i
    rw [List.mem_toFinset, List.mem_toFinset]
    exact hiff i
  have hlq : s.queue.toFinset.card = s.queue.length :=
    List.toFinset_card_of_nodup hInv.queue_nd
  have hlB : B.toFinset.card = B.length :=
    List.toFinset_card_of_nodup hndB
  have hBlen : B.length = (tasks.filter (fun t => !(rooted tasks t))).length := by
    rw [hB]
    exact length_filter_range tasks (fun t => !(rooted tasks t))
  rw [← hlq, htofin, hlB, hBlen]

theorem from_tasks_error_eq {tasks : List Task} {s2 : BState}
    (hrun : runLoop (loopFuel (initState tasks)) (initState tasks) = some s2)
    (hne : s2.queue ≠ []) : from_tasks tasks = .error s2.queue.length := by
  have hfalse : s2.queue.isEmpty = false := by
    rw [Bool.eq_false_iff]
    intro hemp
    exact hne (List.isEmpty_iff.mp hemp)
  simp only [from_tasks, hrun, hfalse]
  simp

/-- C2: whenever some record's declared parent identifier never
resolves, directly or transitively, to a record of the input set
(covering dangling references and rootless cycles alike), `from_tasks`
returns the unresolved-parent error — and with it no forest at all:
the `error` result of the batch carries only the count. -/
theorem claim2_unresolvable (tasks : List Task) (t : Task) (ht : t ∈ tasks)
    (hur : ¬∃ f, rootedFuel tasks f t = true) :
    ∃ k, from_tasks tasks = .error k := by
  obtain ⟨s2, hrun, hg, hInv⟩ := from_tasks_run tasks
  obtain ⟨i, cell, hcell, htsk⟩ := exists_cell_of_mem hInv.heap_tasks ht
  have hiq : i ∈ s2.queue := by
    rw [queue_char hInv hg]
    refine ⟨(List.getElem?_eq_some_iff.mp hcell).1, ?_⟩
    intro cell2 hcell2 hex
    rw [hcell, Option.some.injEq] at hcell2
    rw [← hcell2, htsk] at hex
    exact hur hex
  have hne : s2.queue ≠ [] := by
    intro hemp
    rw [hemp] at hiq
    cases hiq
  exact ⟨s2.queue.length, from_tasks_error_eq hrun hne⟩

theorem claim2_unresolvable_witness :
    ∃ k, from_tasks [mkTask 2 (some 1), mkTask 3 (some 2)] = .error k := by
  apply claim2_unresolvable _ (mkTask 2 (some 1)) (by decide)
  rintro ⟨f, hf⟩
  cases f with
  | zero => simp [rootedFuel] at hf
  | succ f => simp [rootedFuel, mkTask] at hf

/-- C5: whenever `from_tasks` fails, the count in the error equals the
number of input records whose declared parent is transitively
unreachable — the whole unresolved set, covering several independent
broken chains in one batch, not only the first chain to exhaust
retries. -/
theorem claim5_error_count (tasks : List Task) (k : Nat)
    (h : from_tasks tasks = .error k) :
    k = (tasks.filter (fun t => !(rooted tasks t))).length := by
  obtain ⟨s2, hrun, hg, hInv⟩ := from_tasks_run tasks
  by_cases hemp : s2.queue = []
  · exfalso
    have htrue : s2.queue.isEmpty = true := by simp [hemp]
    simp only [from_tasks, hrun, htrue, if_true] at h
    cases hcol : collectForestFrom s2.heap s2.table (s2.heap.length + 1) with
    | none => rw [hcol] at h; cases h
    | some forest => rw [hcol] at h; cases h
  · have herr := from_tasks_error_eq hrun hemp
    rw [h] at herr
    injection herr with hk
    rw [hk]
    exact queue_len_count hInv hg

theorem claim5_error_count_witness :
    2 = ((([mkTask 2 (some 1), mkTask 5 (some 9)]).filter
      (fun t => !(rooted [mkTask 2 (some 1), mkTask 5 (some 9)] t))).length) := by
  have h := claim5_error_count [mkTask 2 (some 1), mkTask 5 (some 9)] 2 (by rfl)
  exact h

theorem optList_some_iff {α : Type} {l : List (Option α)} {r : List α} :
    optList l = some r ↔ l = r.map some := by
  induction l generalizing r with
  | nil =>
    constructor
    · intro h
      simp only [optList, Option.some.injEq] at h
      rw [← h]
      rfl
    · intro h
      cases r with
      | nil => rfl
      | cons a rs => simp at h
  | cons o os ih =>
    cases o with
    | none =>
      constructor
      · intro h
        simp [optList] at h
      · intro h
        cases r with
        | nil => simp at h
        | cons a rs => simp at h
    | some a =>
      constructor
      · intro h
        simp only [optList] at h
        cases hrec : optList os with
        | none => rw [hrec] at h; simp at h
        | some rs =>
          rw [hrec] at h
          simp only [Option.map_some', Option.some.injEq] at h
          rw [← h, List.map_cons]
          rw [ih.mp hrec]
      · intro h
        cases r with
        | nil => simp at h
        | cons b rs =>
          simp only [List.map_cons, List.cons.injEq, Option.some.injEq] at h
          obtain ⟨hab, hos⟩ := h
          simp only [optList, ih.mpr hos, Option.map_some', hab]

theorem optList_none_iff {α : Type} {l : List (Option α)} :
    optList l = none ↔ none ∈ l := by
  induction l with
  | nil => simp [optList]
  | cons o os ih =>
    cases o with
    | none => simp [optList]
    | some a =>
      simp only [optList, List.mem_cons]
      constructor
      · intro h
        cases hrec : optList os with
        | none => exact Or.inr (ih.mp hrec)
        | some rs => rw [hrec] at h; simp at h
      · rintro (h | h)
        · cases h
        · rw [ih.mpr h]
          rfl

theorem mem_treeTasksF {l : List TaskTree} {u : Task} :
    u ∈ treeTasksF l ↔ ∃ tr ∈ l, u ∈ treeTasks tr := by
  induction l with
  | nil => simp [treeTasksF]
  | cons t ts ih =>
    simp only [treeTasksF, List.mem_append, List.mem_cons, ih]
    constructor
    · rintro (h | ⟨tr, htr, hu⟩)
      · exact ⟨t, Or.inl rfl, h⟩
      · exact ⟨tr, Or.inr htr, hu⟩
    · rintro ⟨tr, rfl | htr, hu⟩
      · exact Or.inl hu
      · exact Or.inr ⟨tr, htr, hu⟩

/-- Every tree `finalize` produces from a heap with coherent children
lists is locally parent/child coherent. -/
theorem finalize_good {heap : List Cell}
    (hpar : ∀ (i : Nat) (cl : Cell) (c : Nat) (ccl : Cell), heap[i]? = some cl →
      c ∈ cl.subtasks → heap[c]? = some ccl → ccl.task.parent_id = some cl.task.id) :
    ∀ (f : Nat) (c : Nat) (tr : TaskTree), finalizeCell heap f c = some tr →
      (∃ (cl : Cell), heap[c]? = some cl ∧ tr.task = cl.task) ∧ GoodTree tr := by
  intro f
  induction f with
  | zero =>
    intro c tr h
    simp [finalizeCell] at h
  | succ f ih =>
    intro c tr h
    cases hcl : heap[c]? with
    | none => simp [finalizeCell, hcl] at h
    | some cl =>
      cases hsubs : optList (cl.subtasks.map (finalizeCell heap f)) with
      | none => simp [finalizeCell, hcl, hsubs] at h
      | some subs =>
        simp only [finalizeCell, hcl, hsubs, Option.some.injEq] at h
        have hmap := optList_some_iff.mp hsubs
        have hsub_src : ∀ sub ∈ subs, ∃ c2, c2 ∈ cl.subtasks ∧
            finalizeCell heap f c2 = some sub := by
          intro sub hsub
          have hmem : some sub ∈ cl.subtasks.map (finalizeCell heap f) := by
            rw [hmap]
            exact List.mem_map.mpr ⟨sub, hsub, rfl⟩
          obtain ⟨c2, hc2, he⟩ := List.mem_map.mp hmem
          exact ⟨c2, hc2, he⟩
        refine ⟨⟨cl, rfl, by rw [← h]; rfl⟩, ?_⟩
        rw [← h]
        refine GoodTree.mk cl.task subs ?_ ?_
        · intro sub hsub
          obtain ⟨c2, hc2, he⟩ := hsub_src sub hsub
          obtain ⟨⟨ccl, hccl, htsk⟩, _⟩ := ih c2 sub he
          rw [htsk]
          exact hpar c cl c2 ccl hcl hc2 hccl
        · intro sub hsub
          obtain ⟨c2, hc2, he⟩ := hsub_src sub hsub
          exact (ih c2 sub he).2

/-- Every record stored in a tree `finalize` produces is a record of
the heap, hence of the input. -/
theorem finalize_tasks_sub {tasks : List Task} {heap : List Cell}
    (hht : heap.map Cell.task = tasks) :
    ∀ (f : Nat) (c : Nat) (tr : TaskTree), finalizeCell heap f c = some tr →
      ∀ u ∈ treeTasks tr, u ∈ tasks := by
  intro f
  induction f with
  | zero =>
    intro c tr h
    simp [finalizeCell] at h
  | succ f ih =>
    intro c tr h u hu
    cases hcl : heap[c]? with
    | none => simp [finalizeCell, hcl] at h
    | some cl =>
      cases hsubs : optList (cl.subtasks.map (finalizeCell heap f)) with
      | none => simp [finalizeCell, hcl, hsubs] at h
      | some subs =>
        simp only [finalizeCell, hcl, hsubs, Option.some.injEq] at h
        rw [← h] at hu
        simp only [treeTasks, List.mem_cons] at hu
        rcases hu with rfl | hu
        · exact task_mem_of_getElem? hht hcl
        · rw [mem_treeTasksF] at hu
          obtain ⟨tr2, htr2, hu2⟩ := hu
          have hmap := optList_some_iff.mp hsubs
          have hmem : some tr2 ∈ cl.subtasks.map (finalizeCell heap f) := by
            rw [hmap]
            exact List.mem_map.mpr ⟨tr2, htr2, rfl⟩
          obtain ⟨c2, _, he⟩ := List.mem_map.mp hmem
          exact ih c2 tr2 he u hu2

/-- Inversion of a successful `from_tasks` run. -/
theorem from_tasks_ok_inv {tasks : List Task} {forest : List TaskTree}
    (h : from_tasks tasks = .ok forest) :
    ∃ s2, runLoop (loopFuel (initState tasks)) (initState tasks) = some s2 ∧
      guardB s2 = false ∧ Inv tasks s2 ∧ s2.queue = [] ∧
      collectForestFrom s2.heap s2.table (s2.heap.length + 1) = some forest := by
  obtain ⟨s2, hrun, hg, hInv⟩ := from_tasks_run tasks
  by_cases hemp : s2.queue = []
  · have htrue : s2.queue.isEmpty = true := by simp [hemp]
    simp only [from_tasks, hrun, htrue, if_true] at h
    cases hcol : collectForestFrom s2.heap s2.table (s2.heap.length + 1) with
    | none => rw [hcol] at h; cases h
    | some forest2 =>
      rw [hcol] at h
      injection h with h2
      exact ⟨s2, hrun, hg, hInv, hemp, by rw [hcol, h2]⟩
  · have := from_tasks_error_eq hrun hemp
    rw [h] at this
    cases this

/-- Trees of a successful collection are finalizations of table cells. -/
theorem collect_src {heap : List Cell} {entries : List (Nat × Nat)} {fuel : Nat}
    {forest : List TaskTree}
    (h : collectForestFrom heap entries fuel = some forest) :
    ∀ tr ∈ forest, ∃ c, c ∈ (entries.map (·.2)).filter (isRootCell heap) ∧
      finalizeCell heap fuel c = some tr := by
  intro tr htr
  unfold collectForestFrom at h
  have hmap := optList_some_iff.mp h
  have hmem : some tr ∈ ((entries.map (·.2)).filter (isRootCell heap)).map
      (finalizeCell heap fuel) := by
    rw [hmap]
    exact List.mem_map.mpr ⟨tr, htr, rfl⟩
  obtain ⟨c, hc, he⟩ := List.mem_map.mp hmem
  exact ⟨c, hc, he⟩

/-- C7: on every input on which `from_tasks` succeeds, every node of
every returned tree has only children whose records carry `parent_id =
some` of that node's identifier; the trees are finite inductive
values, so the forest contains no cycles. -/
theorem claim7_parent_coherence (tasks : List Task) (forest : List TaskTree)
    (h : from_tasks tasks = .ok forest) : ∀ tr ∈ forest, GoodTree tr := by
  obtain ⟨s2, hrun, hg, hInv, hemp, hcol⟩ := from_tasks_ok_inv h
  intro tr htr
  obtain ⟨c, _, he⟩ := collect_src hcol tr htr
  exact (finalize_good hInv.child_par (s2.heap.length + 1) c tr he).2

theorem claim7_parent_coherence_witness :
    GoodTree (TaskTree.mk (mkTask 1 none) [TaskTree.mk (mkTask 4 (some 1)) []]) := by
  exact claim7_parent_coherence [mkTask 1 none, mkTask 4 (some 1)]
    [TaskTree.mk (mkTask 1 none) [TaskTree.mk (mkTask 4 (some 1)) []]] (by rfl)
    (TaskTree.mk (mkTask 1 none) [TaskTree.mk (mkTask 4 (some 1)) []]) (by simp)

/-- C9: on every input on which `from_tasks` succeeds, every task
record stored anywhere in the returned forest is one of the input
records, all payload fields included — tree construction copies the
records through unchanged. -/
theorem claim9_payload_unchanged (tasks : List Task) (forest : List TaskTree)
    (h : from_tasks tasks = .ok forest) :
    ∀ tr ∈ forest, ∀ u ∈ treeTasks tr, u ∈ tasks := by
  obtain ⟨s2, hrun, hg, hInv, hemp, hcol⟩ := from_tasks_ok_inv h
  intro tr htr
  obtain ⟨c, _, he⟩ := collect_src hcol tr htr
  exact finalize_tasks_sub hInv.heap_tasks (s2.heap.length + 1) c tr he

theorem claim9_payload_unchanged_witness :
    mkTask 3 (some 1) ∈ [mkTask 1 none, mkTask 3 (some 1)] := by
  exact claim9_payload_unchanged [mkTask 1 none, mkTask 3 (some 1)]
    [TaskTree.mk (mkTask 1 none) [TaskTree.mk (mkTask 3 (some 1)) []]] (by rfl)
    (TaskTree.mk (mkTask 1 none) [TaskTree.mk (mkTask 3 (some 1)) []]) (by simp)
    (mkTask 3 (some 1)) (by decide)

theorem perm_of_map_some_perm {α : Type} {r1 r2 : List α}
    (h : (r1.map some).Perm (r2.map some)) : r1.Perm r2 := by
  have h2 := h.filterMap id
  rw [List.filterMap_map, List.filterMap_map] at h2
  have hid : ∀ (r : List α), List.filterMap (id ∘ some) r = r := by
    intro r
    have : (id ∘ some : α → Option α) = some := rfl
    rw [this, List.filterMap_some]
  rwa [hid, hid] at h2

theorem optList_perm {α : Type} {l1 l2 : List (Option α)} (hp : l1.Perm l2) :
    (optList l1 = none ↔ optList l2 = none) ∧
    (∀ r1 r2, optList l1 = some r1 → optList l2 = some r2 → r1.Perm r2) := by
  constructor
  · rw [optList_none_iff, optList_none_iff]
    exact ⟨fun h => hp.mem_iff.mp h, fun h => hp.mem_iff.mpr h⟩
  · intro r1 r2 h1 h2
    rw [optList_some_iff] at h1 h2
    apply perm_of_map_some_perm
    rw [← h1, ← h2]
    exact hp

/-- C8: running `from_tasks` twice on the same input gives forests of
identical structure. The only behaviour the original leaves open is
the iteration order of the final `HashMap`; for every order `ord` (any
permutation of the table the loop produced) the run with that order
gives the same outcome, the same error count on failure, and on
success the same trees with the same nesting — only the order of roots
may differ. -/
theorem claim8_shape_deterministic (tasks : List Task) (ord : List (Nat × Nat))
    (s2 : BState)
    (hrun : runLoop (loopFuel (initState tasks)) (initState tasks) = some s2)
    (hp : ord.Perm s2.table) :
    ResultShapeEq (from_tasks tasks) (from_tasksWith tasks ord) := by
  have hperm : (((s2.table.map (·.2)).filter (isRootCell s2.heap)).map
        (finalizeCell s2.heap (s2.heap.length + 1))).Perm
      (((ord.map (·.2)).filter (isRootCell s2.heap)).map
        (finalizeCell s2.heap (s2.heap.length + 1))) :=
    ((hp.symm.map (·.2)).filter (isRootCell s2.heap)).map _
  have hkey := optList_perm hperm
  have hnone_iff : collectForestFrom s2.heap s2.table (s2.heap.length + 1) = none ↔
      collectForestFrom s2.heap ord (s2.heap.length + 1) = none := hkey.1
  have hsome : ∀ f1 f2, collectForestFrom s2.heap s2.table (s2.heap.length + 1) = some f1 →
      collectForestFrom s2.heap ord (s2.heap.length + 1) = some f2 → f1.Perm f2 := hkey.2
  by_cases hemp : s2.queue = []
  · have htrue : s2.queue.isEmpty = true := by simp [hemp]
    simp only [from_tasks, from_tasksWith, hrun, htrue, if_true]
    cases hc1 : collectForestFrom s2.heap s2.table (s2.heap.length + 1) with
    | none =>
      have hc2 : collectForestFrom s2.heap ord (s2.heap.length + 1) = none :=
        hnone_iff.mp hc1
      rw [hc2]
      show True
      trivial
    | some f1 =>
      cases hc2 : collectForestFrom s2.heap ord (s2.heap.length + 1) with
      | none =>
        exfalso
        have hcon := hnone_iff.mpr hc2
        rw [hc1] at hcon
        cases hcon
      | some f2 =>
        show f1.Perm f2
        exact hsome f1 f2 hc1 hc2
  · have hfalse : s2.queue.isEmpty = false := by
      rw [Bool.eq_false_iff]
      intro he
      exact hemp (List.isEmpty_iff.mp he)
    simp only [from_tasks, from_tasksWith, hrun, hfalse]
    show s2.queue.length = s2.queue.length
    rfl

theorem claim8_shape_deterministic_witness :
    ResultShapeEq (from_tasks [mkTask 1 none, mkTask 2 none])
      (from_tasksWith [mkTask 1 none, mkTask 2 none] [(2, 1), (1, 0)]) := by
  exact claim8_shape_deterministic [mkTask 1 none, mkTask 2 none] [(2, 1), (1, 0)]
    (initState [mkTask 1 none, mkTask 2 none]) (by rfl) (by decide)

theorem attachCT_rootIdx (p c : Nat) (t : CTree) :
    (attachCT p c t).rootIdx = t.rootIdx := by
  cases t
  rfl

theorem attachF_rootIdx (p c : Nat) (l : List CTree) :
    (attachF p c l).map CTree.rootIdx = l.map CTree.rootIdx := by
  induction l with
  | nil => rfl
  | cons t ts ih =>
    simp only [attachF, List.map_cons, attachCT_rootIdx, ih]

theorem flattenF_append (a b : List CTree) :
    flattenF (a ++ b) = flattenF a ++ flattenF b := by
  induction a with
  | nil => rfl
  | cons t ts ih => simp [flattenF, ih]

mutual

theorem flatten_attach_notmem (p c : Nat) : ∀ t : CTree, p ∉ flattenCT t →
    flattenCT (attachCT p c t) = flattenCT t
  | .mk r ks, h => by
    have hset : flattenCT (CTree.mk r ks) = r :: flattenF ks := rfl
    rw [hset] at h
    simp only [List.mem_cons, not_or] at h
    have hrp : (r == p) = false := by
      simp only [beq_eq_false_iff_ne, ne_eq]
      exact fun he => h.1 he.symm
    show flattenCT (CTree.mk r (attachF p c ks ++ (if r == p then [CTree.mk c []] else []))) = _
    rw [hrp]
    have hflat : flattenCT (CTree.mk r (attachF p c ks ++ ([] : List CTree)))
        = r :: flattenF (attachF p c ks) := by
      rw [List.append_nil]
      rfl
    simp only [if_false, Bool.false_eq_true, hflat, hset]
    rw [flattenF_attach_notmem p c ks h.2]

theorem flattenF_attach_notmem (p c : Nat) : ∀ l : List CTree, p ∉ flattenF l →
    flattenF (attachF p c l) = flattenF l
  | [], _ => rfl
  | t :: ts, h => by
    have hset : flattenF (t :: ts) = flattenCT t ++ flattenF ts := rfl
    rw [hset] at h
    simp only [List.mem_append, not_or] at h
    show flattenCT (attachCT p c t) ++ flattenF (attachF p c ts) = _
    rw [flatten_attach_notmem p c t h.1, flattenF_attach_notmem p c ts h.2, hset]

end

mutual

theorem flatten_attach_mem (p c : Nat) : ∀ t : CTree, p ∈ flattenCT t →
    (flattenCT t).Nodup → (flattenCT (attachCT p c t)).Perm (c :: flattenCT t)
  | .mk r ks, hmem, hnd => by
    have hset : flattenCT (CTree.mk r ks) = r :: flattenF ks := rfl
    rw [hset] at hmem hnd ⊢
    rw [List.nodup_cons] at hnd
    show (flattenCT (CTree.mk r (attachF p c ks ++
      (if r == p then [CTree.mk c []] else [])))).Perm _
    by_cases hrp : p = r
    · have hnotks : p ∉ flattenF ks := by
        rw [hrp]
        exact hnd.1
      have hbeq : (r == p) = true := by simp [hrp.symm]
      rw [hbeq]
      have hflat : flattenCT (CTree.mk r (attachF p c ks ++
          (if true then [CTree.mk c []] else []))) =
          r :: (flattenF (attachF p c ks) ++ [c]) := by
        show r :: flattenF (attachF p c ks ++ [CTree.mk c []]) = _
        rw [flattenF_append]
        rfl
      rw [hflat, flattenF_attach_notmem p c ks hnotks]
      exact (List.Perm.cons r (List.perm_append_singleton c (flattenF ks))).trans
        (List.Perm.swap c r (flattenF ks))
    · have hks : p ∈ flattenF ks := by
        rcases List.mem_cons.mp hmem with he | hks
        · exact absurd he hrp
        · exact hks
      have hbeq : (r == p) = false := by
        simp only [beq_eq_false_iff_ne, ne_eq]
        exact fun he => hrp he.symm
      rw [hbeq]
      have hflat : flattenCT (CTree.mk r (attachF p c ks ++
          (if false then [CTree.mk c []] else []))) =
          r :: flattenF (attachF p c ks) := by
        show r :: flattenF (attachF p c ks ++ []) = _
        rw [List.append_nil]
      rw [hflat]
      exact (List.Perm.cons r (flattenF_attach_mem p c ks hks hnd.2)).trans
        (List.Perm.swap c r (flattenF ks))

theorem flattenF_attach_mem (p c : Nat) : ∀ l : List CTree, p ∈ flattenF l →
    (flattenF l).Nodup → (flattenF (attachF p c l)).Perm (c :: flattenF l)
  | [], hmem, _ => by cases hmem
  | t :: ts, hmem, hnd => by
    have hset : flattenF (t :: ts) = flattenCT t ++ flattenF ts := rfl
    rw [hset] at hmem hnd ⊢
    rw [List.nodup_append] at hnd
    show (flattenCT (attachCT p c t) ++ flattenF (attachF p c ts)).Perm _
    rcases List.mem_append.mp hmem with hin | hin
    · have hnotts : p ∉ flattenF ts := fun h2 => hnd.2.2 hin h2
      rw [flattenF_attach_notmem p c ts hnotts]
      have hstep : (flattenCT (attachCT p c t) ++ flattenF ts).Perm
          ((c :: flattenCT t) ++ flattenF ts) :=
        (flatten_attach_mem p c t hin hnd.1).append_right _
      exact hstep
    · have hnott : p ∉ flattenCT t := fun h2 => hnd.2.2 h2 hin
      rw [flatten_attach_notmem p c t hnott]
      have hstep : (flattenCT t ++ flattenF (attachF p c ts)).Perm
          (flattenCT t ++ (c :: flattenF ts)) :=
        (flattenF_attach_mem p c ts hin hnd.2.1).append_left _
      exact hstep.trans List.perm_middle

end

mutual

theorem heightCT_le_flatten : ∀ t : CTree, heightCT t ≤ (flattenCT t).length
  | .mk r ks => by
    simp only [heightCT, flattenCT, List.length_cons]
    have := heightF_le_flatten ks
    omega

theorem heightF_le_flatten : ∀ l : List CTree, heightF l ≤ (flattenF l).length
  | [] => by simp [heightF, flattenF]
  | t :: ts => by
    simp only [heightF, flattenF, List.length_append]
    have h1 := heightCT_le_flatten t
    have h2 := heightF_le_flatten ts
    omega

end

theorem flattenF_sub {l : List CTree} {t : CTree} (h : t ∈ l) :
    ∀ x ∈ flattenCT t, x ∈ flattenF l := by
  induction l with
  | nil => cases h
  | cons t2 ts ih =>
    intro x hx
    simp only [flattenF, List.mem_append]
    rcases List.mem_cons.mp h with rfl | h2
    · exact Or.inl hx
    · exact Or.inr (ih h2 x hx)

theorem mem_attachF {p c : Nat} {l : List CTree} {k2 : CTree} :
    k2 ∈ attachF p c l ↔ ∃ k ∈ l, k2 = attachCT p c k := by
  induction l with
  | nil => simp [attachF]
  | cons t ts ih =>
    simp only [attachF, List.mem_cons, ih]
    constructor
    · rintro (rfl | ⟨k, hk, rfl⟩)
      · exact ⟨t, Or.inl rfl, rfl⟩
      · exact ⟨k, Or.inr hk, rfl⟩
    · rintro ⟨k, rfl | hk, rfl⟩
      · exact Or.inl rfl
      · exact Or.inr ⟨k, hk, rfl⟩

theorem heightCT_mem {l : List CTree} {k : CTree} (h : k ∈ l) :
    heightCT k ≤ heightF l := by
  induction l with
  | nil => cases h
  | cons t ts ih =>
    rcases List.mem_cons.mp h with rfl | h2
    · simp [heightF]
    · have := ih h2
      simp only [heightF]
      omega

theorem cellTasks_append (heap : List Cell) (a b : List Nat) :
    cellTasks heap (a ++ b) = cellTasks heap a ++ cellTasks heap b := by
  simp [cellTasks, List.filterMap_append]

theorem cellTasks_cons_some {heap : List Cell} {r : Nat} {cell : Cell}
    (h : heap[r]? = some cell) (rest : List Nat) :
    cellTasks heap (r :: rest) = cell.task :: cellTasks heap rest := by
  simp [cellTasks, List.filterMap_cons, h]

/-- Attaching a fresh leaf under `p` keeps the ghost forest aligned
with the updated heap. -/
theorem ghost_attach {heap heap2 : List Cell} {p c : Nat}
    (hget : ∀ (x : Nat) (cellx : Cell), heap[x]? = some cellx → x ≠ c →
        heap2[x]? = some (if x = p then { cellx with subtasks := cellx.subtasks ++ [c] }
          else cellx))
    (hgetc : ∃ cellc : Cell, heap2[c]? = some cellc ∧ cellc.subtasks = []) :
    ∀ {t : CTree}, GhostOK heap t → c ∉ flattenCT t →
      GhostOK heap2 (attachCT p c t) := by
  intro t hok
  induction hok with
  | intro r ks cell hcell hsub hks ih =>
    intro hnotc
    have hflat : flattenCT (CTree.mk r ks) = r :: flattenF ks := rfl
    rw [hflat, List.mem_cons, not_or] at hnotc
    have hrc : r ≠ c := fun he => hnotc.1 he.symm
    have hcell2 := hget r cell hcell hrc
    show GhostOK heap2 (CTree.mk r (attachF p c ks ++
      (if r == p then [CTree.mk c []] else [])))
    have hkids : ∀ k2 ∈ attachF p c ks, GhostOK heap2 k2 := by
      intro k2 hk2
      obtain ⟨k, hk, rfl⟩ := mem_attachF.mp hk2
      refine ih k hk ?_
      intro hcmem
      exact hnotc.2 (flattenF_sub hk c hcmem)
    by_cases hrp : r = p
    · have hbeq : (r == p) = true := by simp [hrp]
      rw [hbeq]
      rw [if_pos hrp] at hcell2
      refine GhostOK.intro r (attachF p c ks ++ [CTree.mk c []]) _ hcell2 ?_ ?_
      · show cell.subtasks ++ [c] = _
        rw [List.map_append, attachF_rootIdx, hsub]
        rfl
      · intro k2 hk2
        rcases List.mem_append.mp hk2 with hk2 | hk2
        · exact hkids k2 hk2
        · simp only [List.mem_singleton] at hk2
          subst hk2
          obtain ⟨cellc, hc, hcsub⟩ := hgetc
          exact GhostOK.intro c [] cellc hc (by rw [hcsub]; rfl) (by intro k hk; cases hk)
    · have hbeq : (r == p) = false := by simp [hrp]
      rw [hbeq]
      rw [if_neg hrp] at hcell2
      have hnil : (if false then [CTree.mk c []] else []) = ([] : List CTree) := rfl
      rw [hnil, List.append_nil]
      refine GhostOK.intro r (attachF p c ks) _ hcell2 ?_ hkids
      rw [attachF_rootIdx]
      exact hsub

/-- A tree `finalize` produces from a ghost node stores exactly the
records of the ghost's cells, in traversal order. -/
theorem finalize_ghost_eq {heap : List Cell} : ∀ {t : CTree}, GhostOK heap t →
    ∀ (f : Nat) (tr : TaskTree), finalizeCell heap f t.rootIdx = some tr →
      treeTasks tr = cellTasks heap (flattenCT t) := by
  intro t hok
  induction hok with
  | intro r ks cell hcell hsub hks ih =>
    intro f tr h
    cases f with
    | zero => simp [finalizeCell, CTree.rootIdx] at h
    | succ f =>
      have hroot : (CTree.mk r ks).rootIdx = r := rfl
      rw [hroot] at h
      cases hsubs : optList (cell.subtasks.map (finalizeCell heap f)) with
      | none => simp [finalizeCell, hcell, hsubs] at h
      | some subs =>
        simp only [finalizeCell, hcell, hsubs, Option.some.injEq] at h
        have haux : ∀ (ks2 : List CTree) (subs2 : List TaskTree),
            (∀ k ∈ ks2, ∀ (f2 : Nat) (tr2 : TaskTree),
              finalizeCell heap f2 k.rootIdx = some tr2 →
              treeTasks tr2 = cellTasks heap (flattenCT k)) →
            (ks2.map CTree.rootIdx).map (finalizeCell heap f) = subs2.map some →
            treeTasksF subs2 = cellTasks heap (flattenF ks2) := by
          intro ks2
          induction ks2 with
          | nil =>
            intro subs2 _ he
            cases subs2 with
            | nil => rfl
            | cons s ss => simp at he
          | cons k ks3 ih2 =>
            intro subs2 hall he
            cases subs2 with
            | nil => simp at he
            | cons s ss =>
              simp only [List.map_cons, List.cons.injEq] at he
              have h1 := hall k (by simp) f s he.1
              have h2 := ih2 ss (fun k2 hk2 => hall k2 (by simp [hk2])) he.2
              show treeTasks s ++ treeTasksF ss
                = cellTasks heap (flattenCT k ++ flattenF ks3)
              rw [cellTasks_append, h1, h2]
        have hsubs2 : (ks.map CTree.rootIdx).map (finalizeCell heap f) = subs.map some := by
          rw [← hsub]
          exact optList_some_iff.mp hsubs
        have hF := haux ks subs ih hsubs2
        rw [← h]
        show cell.task :: treeTasksF subs = cellTasks heap (r :: flattenF ks)
        rw [cellTasks_cons_some hcell, hF]

/-- With fuel at least the ghost height, `finalize` succeeds on a
ghost node. -/
theorem finalize_ghost_some {heap : List Cell} : ∀ {t : CTree}, GhostOK heap t →
    ∀ f : Nat, heightCT t ≤ f → ∃ tr, finalizeCell heap f t.rootIdx = some tr := by
  intro t hok
  induction hok with
  | intro r ks cell hcell hsub hks ih =>
    intro f hf
    have hht : heightCT (CTree.mk r ks) = heightF ks + 1 := rfl
    rw [hht] at hf
    obtain ⟨f2, rfl⟩ : ∃ f2, f = f2 + 1 := ⟨f - 1, by omega⟩
    have haux : ∀ (ks2 : List CTree),
        (∀ k ∈ ks2, ∃ tr, finalizeCell heap f2 k.rootIdx = some tr) →
        ∃ subs, optList ((ks2.map CTree.rootIdx).map (finalizeCell heap f2))
          = some subs := by
      intro ks2
      induction ks2 with
      | nil => exact fun _ => ⟨[], rfl⟩
      | cons k ks3 ih2 =>
        intro hall
        obtain ⟨tr, htr⟩ := hall k (by simp)
        obtain ⟨subs, hsubs⟩ := ih2 (fun k2 hk2 => hall k2 (by simp [hk2]))
        refine ⟨tr :: subs, ?_⟩
        simp only [List.map_cons, optList, htr, hsubs, Option.map_some']
    obtain ⟨subs, hsubs⟩ := haux ks (fun k hk =>
      ih k hk f2 (by have := heightCT_mem hk; omega))
    refine ⟨.mk cell.task subs, ?_⟩
    have hroot : (CTree.mk r ks).rootIdx = r := rfl
    rw [hroot]
    have hsubs3 : optList (cell.subtasks.map (finalizeCell heap f2)) = some subs := by
      rw [hsub]
      exact hsubs
    simp only [finalizeCell, hcell, hsubs3]

/-- Distinct identifiers pin each record to a single heap position. -/
theorem id_inj {tasks : List Task} (hdid : (tasks.map (·.id)).Nodup)
    {i j : Nat} {ti tj : Task} (hi : tasks[i]? = some ti) (hj : tasks[j]? = some tj)
    (hij : ti.id = tj.id) : i = j := by
  have hilt : i < tasks.length := (List.getElem?_eq_some_iff.mp hi).1
  have hmi : (tasks.map (·.id))[i]? = some ti.id := by
    rw [List.getElem?_map, hi]
    rfl
  have hmj : (tasks.map (·.id))[j]? = some tj.id := by
    rw [List.getElem?_map, hj]
    rfl
  have key : (tasks.map (·.id))[i]? = (tasks.map (·.id))[j]? := by
    rw [hmi, hmj, hij]
  exact List.getElem?_inj (by simpa using hilt) hdid key

theorem rootEntries_keys_sub {tasks : List Task} {off k : Nat}
    (h : k ∈ (rootEntries tasks off).map (·.1)) : k ∈ tasks.map (·.id) := by
  obtain ⟨e, he, hek⟩ := List.mem_map.mp h
  obtain ⟨j, _, _, t, ht, _, hid⟩ := mem_rootEntries.mp he
  exact List.mem_map.mpr ⟨t, List.getElem?_mem ht, by rw [hid, hek]⟩

theorem rootEntries_keys_nodup (tasks : List Task)
    (hdid : (tasks.map (·.id)).Nodup) :
    ∀ off : Nat, ((rootEntries tasks off).map (·.1)).Nodup := by
  induction tasks with
  | nil => intro off; simp [rootEntries]
  | cons t ts ih =>
    intro off
    rw [List.map_cons, List.nodup_cons] at hdid
    cases hps : t.parent_id.isNone with
    | false => simpa [rootEntries, hps] using ih hdid.2 (off + 1)
    | true =>
      simp only [rootEntries, hps, if_pos, List.singleton_append, List.map_cons,
        List.nodup_cons]
      exact ⟨fun hmem => hdid.1 (rootEntries_keys_sub hmem), ih hdid.2 (off + 1)⟩

/-- With fresh keys throughout, seeding the map by successive inserts
reproduces the entry list exactly. -/
theorem foldIns_of_keys_nodup (entries : List (Nat × Nat))
    (hknd : (entries.map (·.1)).Nodup) :
    entries.foldl (fun tb e => insertA tb e.1 e.2) [] = entries := by
  induction entries using List.reverseRecOn with
  | nil => rfl
  | append_singleton es e ih =>
    rw [List.map_append, List.nodup_append] at hknd
    have hih := ih hknd.1
    rw [List.foldl_append, hih]
    simp only [List.foldl_cons, List.foldl_nil]
    have hfresh : e.1 ∉ es.map (·.1) := by
      intro hmem
      exact hknd.2.2 hmem (by simp)
    rw [insertA_of_not_mem hfresh]

theorem flattenF_leaves (l : List Nat) :
    flattenF (l.map (fun c => CTree.mk c [])) = l := by
  induction l with
  | nil => rfl
  | cons c cs ih => simp only [List.map_cons, flattenF, flattenCT, ih]; rfl

/-- The distinct-identifier invariant holds before the retry loop. -/
theorem initD (tasks : List Task) (hdid : (tasks.map (·.id)).Nodup) :
    InvD (initState tasks) := by
  have htb : (initState tasks).table = rootEntries tasks 0 :=
    foldIns_of_keys_nodup (rootEntries tasks 0) (rootEntries_keys_nodup tasks hdid 0)
  have hlen : (initState tasks).heap.length = tasks.length := by simp [initState]
  have hheap : ∀ (i : Nat) (cl : Cell), (initState tasks).heap[i]? = some cl →
      tasks[i]? = some cl.task ∧ cl.parent = none ∧ cl.subtasks = [] := by
    intro i cl h
    simp only [initState, List.getElem?_map] at h
    cases ht : tasks[i]? with
    | none => rw [ht] at h; simp at h
    | some t =>
      rw [ht] at h
      simp only [Option.map_some', Option.some.injEq] at h
      rw [← h]
      exact ⟨rfl, rfl, rfl⟩
  have hvals : ∀ c ∈ (initState tasks).table.map (·.2), c < tasks.length := by
    intro c hc
    rw [htb] at hc
    obtain ⟨e, he, hec⟩ := List.mem_map.mp hc
    obtain ⟨j, hj, he2, _, _, _, _⟩ := mem_rootEntries.mp he
    omega
  have hcellv : ∀ c ∈ (initState tasks).table.map (·.2),
      ∃ cl : Cell, (initState tasks).heap[c]? = some cl ∧ cl.parent = none ∧
        cl.subtasks = [] := by
    intro c hc
    have hclt : c < (initState tasks).heap.length := by
      rw [hlen]
      exact hvals c hc
    obtain ⟨cl, hcl⟩ : ∃ cl, (initState tasks).heap[c]? = some cl := by
      rw [List.getElem?_eq_getElem hclt]
      exact ⟨_, rfl⟩
    obtain ⟨_, hpn, hsub⟩ := hheap c cl hcl
    exact ⟨cl, hcl, hpn, hsub⟩
  have hroots : rootIdxs (initState tasks).heap (initState tasks).table
      = (initState tasks).table.map (·.2) := by
    apply List.filter_eq_self.mpr
    intro c hc
    obtain ⟨cl, hcl, hpn, _⟩ := hcellv c hc
    simp only [isRootCell, hcl, hpn]
    rfl
  constructor
  · -- every cell is queued or a seeded table value
    intro i hi
    rw [hlen] at hi
    obtain ⟨t, ht⟩ : ∃ t, tasks[i]? = some t := by
      rw [List.getElem?_eq_getElem hi]
      exact ⟨_, rfl⟩
    cases hpid : t.parent_id with
    | some p =>
      left
      show i ∈ candIdxs tasks 0
      exact mem_candIdxs.mpr ⟨i, hi, by omega, t, ht, by simp [hpid]⟩
    | none =>
      right
      rw [htb]
      exact List.mem_map.mpr
        ⟨(t.id, i), mem_rootEntries.mpr ⟨i, hi, by omega, t, ht, hpid, rfl⟩, rfl⟩
  · -- the seeded roots, as bare leaves, form the ghost forest
    refine ⟨((initState tasks).table.map (·.2)).map (fun c => CTree.mk c []), ?_, ?_, ?_⟩
    · rw [flattenF_leaves]
    · rw [List.map_map, hroots]
      have : (CTree.rootIdx ∘ fun c => CTree.mk c []) = id := by
        funext c
        rfl
      rw [this, List.map_id]
    · intro t ht
      obtain ⟨c, hc, rfl⟩ := List.mem_map.mp ht
      obtain ⟨cl, hcl, _, hsub⟩ := hcellv c hc
      exact GhostOK.intro c [] cl hcl (by rw [hsub]; rfl) (by intro k hk; cases hk)

theorem invD_miss {s : BState} {c : Nat} {rest : List Nat}
    (hqe : s.queue = c :: rest) (hD : InvD s) : InvD (missState s c rest) := by
  constructor
  · intro i hi
    rcases hD.cover i hi with hq | ht
    · rw [hqe] at hq
      rcases List.mem_cons.mp hq with rfl | h
      · left
        show i ∈ rest ++ [i]
        simp
      · left
        show i ∈ rest ++ [c]
        exact List.mem_append_left _ h
    · right
      exact ht
  · exact hD.ghost

/-- Under distinct identifiers, the id inserted into the table on a
successful attach is never already a key. -/
theorem attach_key_fresh {tasks : List Task} {s : BState} {c : Nat} {cell : Cell}
    (hdid : (tasks.map (·.id)).Nodup) (hInv : Inv tasks s)
    (hcq : c ∈ s.queue) (hcell : s.heap[c]? = some cell) :
    cell.task.id ∉ s.table.map (·.1) := by
  intro hmem
  obtain ⟨e, he, hek⟩ := List.mem_map.mp hmem
  have helt : e.2 < s.heap.length := hInv.tv_lt e he
  obtain ⟨ecell, hecell⟩ : ∃ ecell, s.heap[e.2]? = some ecell := by
    rw [List.getElem?_eq_getElem helt]
    exact ⟨_, rfl⟩
  have hkey : ecell.task.id = e.1 := hInv.tv_key e ecell he hecell
  have hne : e.2 ≠ c := hInv.disj c hcq e he
  have hget : ∀ (i : Nat) (cl : Cell), s.heap[i]? = some cl →
      tasks[i]? = some cl.task := by
    intro i cl h
    rw [← hInv.heap_tasks, List.getElem?_map, h]
    rfl
  exact hne (id_inj hdid (hget _ _ hecell) (hget _ _ hcell) (by rw [hkey, hek]))

theorem invD_attach {tasks : List Task} {s : BState} {c : Nat} {rest : List Nat}
    {cell : Cell} {p pc : Nat} {pcell : Cell}
    (hdid : (tasks.map (·.id)).Nodup) (hInv : Inv tasks s) (hqe : s.queue = c :: rest)
    (hcell : s.heap[c]? = some cell) (hpcell : s.heap[pc]? = some pcell)
    (hne : pc ≠ c) (hmem : (p, pc) ∈ s.table) (hD : InvD s) :
    InvD (attachState s c rest cell pc pcell) := by
  have hclt : c < s.heap.length := (List.getElem?_eq_some_iff.mp hcell).1
  have hpclt : pc < s.heap.length := (List.getElem?_eq_some_iff.mp hpcell).1
  have hcq : c ∈ s.queue := by rw [hqe]; simp
  obtain ⟨_, _, hsubc⟩ := hInv.queue_cell c cell hcq hcell
  have hfresh := attach_key_fresh hdid hInv hcq hcell
  set cellF : Cell := { cell with parent := some () } with hcellFdef
  set pcell2 : Cell := { pcell with subtasks := pcell.subtasks ++ [c] } with hpcell2def
  set heap2 : List Cell := (s.heap.set c cellF).set pc pcell2 with hheap2def
  have hlen1 : (s.heap.set c cellF).length = s.heap.length := by simp
  have hget_pc : heap2[pc]? = some pcell2 := by
    rw [hheap2def, List.getElem?_set_self (by rw [hlen1]; exact hpclt)]
  have hget_c : heap2[c]? = some cellF := by
    rw [hheap2def, List.getElem?_set_ne hne, List.getElem?_set_self hclt]
  have hget_other : ∀ x, x ≠ pc → x ≠ c → heap2[x]? = s.heap[x]? := by
    intro x hxpc hxc
    rw [hheap2def, List.getElem?_set_ne (fun h => hxpc h.symm),
      List.getElem?_set_ne (fun h => hxc h.symm)]
  have htb2 : (attachState s c rest cell pc pcell).table
      = s.table ++ [(cell.task.id, c)] := insertA_of_not_mem hfresh
  have hvals2 : (attachState s c rest cell pc pcell).table.map (·.2)
      = s.table.map (·.2) ++ [c] := by
    rw [htb2]
    simp
  obtain ⟨gf, hperm, hroots, hok⟩ := hD.ghost
  have hfnd : (flattenF gf).Nodup := hperm.nodup_iff.mpr hInv.vals_nd
  have hpcv : pc ∈ s.table.map (·.2) := List.mem_map.mpr ⟨(p, pc), hmem, rfl⟩
  have hpcf : pc ∈ flattenF gf := hperm.mem_iff.mpr hpcv
  have hcnv : c ∉ s.table.map (·.2) := by
    intro hmem2
    obtain ⟨e, he, hev⟩ := List.mem_map.mp hmem2
    exact hInv.disj c hcq e he hev
  have hcnf : c ∉ flattenF gf := fun h => hcnv (hperm.mem_iff.mp h)
  have hheapD : (attachState s c rest cell pc pcell).heap = heap2 := rfl
  constructor
  · -- cover
    intro i hi
    rw [hheapD, hheap2def] at hi
    simp only [List.length_set] at hi
    rcases hD.cover i hi with hq | ht
    · rw [hqe] at hq
      rcases List.mem_cons.mp hq with rfl | h
      · right
        rw [hvals2]
        simp
      · left
        exact h
    · right
      rw [hvals2]
      exact List.mem_append_left _ ht
  · -- ghost forest: attach the new leaf under pc inside the old forest
    refine ⟨attachF pc c gf, ?_, ?_, ?_⟩
    · have h1 := flattenF_attach_mem pc c gf hpcf hfnd
      rw [hvals2]
      exact h1.trans ((hperm.cons c).trans
        (List.perm_append_singleton c (s.table.map (·.2))).symm)
    · rw [attachF_rootIdx, hroots]
      show rootIdxs s.heap s.table = rootIdxs (attachState s c rest cell pc pcell).heap
        (attachState s c rest cell pc pcell).table
      unfold rootIdxs
      rw [hvals2, hheapD, List.filter_append]
      have hcroot : isRootCell heap2 c = false := by
        simp only [isRootCell, hget_c]
        rfl
      have hnil : List.filter (isRootCell heap2) [c] = [] := by
        simp [hcroot]
      rw [hnil, List.append_nil]
      apply List.filter_congr
      intro x hx
      have hxc : x ≠ c := fun he => hcnv (he ▸ hx)
      by_cases hxpc : x = pc
      · subst hxpc
        simp only [isRootCell, hget_pc, hpcell]
      · rw [isRootCell, isRootCell, hget_other x hxpc hxc]
    · intro t2 ht2
      obtain ⟨t, ht, rfl⟩ := mem_attachF.mp ht2
      have hgetIf : ∀ (x : Nat) (cellx : Cell), s.heap[x]? = some cellx → x ≠ c →
          heap2[x]? = some (if x = pc then
            { cellx with subtasks := cellx.subtasks ++ [c] } else cellx) := by
        intro x cellx hx hxc
        by_cases hxpc : x = pc
        · subst hxpc
          rw [hpcell, Option.some.injEq] at hx
          rw [if_pos rfl, hget_pc, ← hx]
        · rw [if_neg hxpc, hget_other x hxpc hxc]
          exact hx
      have hgetc2 : ∃ cellc : Cell, heap2[c]? = some cellc ∧ cellc.subtasks = [] :=
        ⟨cellF, hget_c, hsubc⟩
      exact ghost_attach hgetIf hgetc2 (hok t ht)
        (fun h => hcnf (flattenF_sub ht c h))

/-- With distinct identifiers both invariants travel through the loop,
which still halts on the supplied fuel without a modelled panic. -/
theorem run_halts2 {tasks : List Task} (hdid : (tasks.map (·.id)).Nodup) (W : Nat) :
    ∀ {s : BState}, Inv tasks s → InvD s → mW s ≤ W →
      ∃ s2, runLoop W s = some s2 ∧ guardB s2 = false ∧ Inv tasks s2 ∧ InvD s2 := by
  induction W with
  | zero =>
    intro s hInv hD hle
    cases hg : guardB s with
    | false => exact ⟨s, by simp [runLoop, hg], hg, hInv, hD⟩
    | true => exact absurd (mW_pos hg) (by omega)
  | succ W ih =>
    intro s hInv hD hle
    cases hg : guardB s with
    | false => exact ⟨s, by simp [runLoop, hg], hg, hInv, hD⟩
    | true =>
      obtain ⟨c, rest, cell, p, hqe, hcell, hp, hbr⟩ := loopStep_spec hInv hg
      rcases hbr with ⟨hlk, hstep⟩ | ⟨pc, pcell, hlk, hpcell, hne, hmem, hstep⟩
      · have hInv2 := inv_miss hInv hqe hcell hp hlk
        have hD2 := invD_miss hqe hD
        have hdec := mW_miss hqe hg
        obtain ⟨s2, hrun, hg2, hInv3, hD3⟩ := ih hInv2 hD2 (by omega)
        exact ⟨s2, by simp [runLoop, hg, hstep, hrun], hg2, hInv3, hD3⟩
      · have hInv2 := inv_attach hInv hqe hcell hp hpcell hne hmem
        have hD2 := invD_attach hdid hInv hqe hcell hpcell hne hmem hD
        have hdec := @mW_attach s c rest cell pc pcell hqe
        obtain ⟨s2, hrun, hg2, hInv3, hD3⟩ := ih hInv2 hD2 (by omega)
        exact ⟨s2, by simp [runLoop, hg, hstep, hrun], hg2, hInv3, hD3⟩

theorem from_tasks_run2 (tasks : List Task) (hdid : (tasks.map (·.id)).Nodup) :
    ∃ s2, runLoop (loopFuel (initState tasks)) (initState tasks) = some s2 ∧
      guardB s2 = false ∧ Inv tasks s2 ∧ InvD s2 := by
  apply run_halts2 hdid
  · exact init_inv tasks
  · exact initD tasks hdid
  · unfold mW loopFuel
    omega

theorem flattenCT_length_le {l : List CTree} {t : CTree} (h : t ∈ l) :
    (flattenCT t).length ≤ (flattenF l).length := by
  induction l with
  | nil => cases h
  | cons u us ih =>
    rcases List.mem_cons.mp h with rfl | h2
    · simp [flattenF]
    · have := ih h2
      simp only [flattenF, List.length_append]
      omega

theorem finalize_task {heap : List Cell} {f c : Nat} {tr : TaskTree} {cl : Cell}
    (h : finalizeCell heap f c = some tr) (hcl : heap[c]? = some cl) :
    tr.task = cl.task := by
  cases f with
  | zero => simp [finalizeCell] at h
  | succ f =>
    cases hsubs : optList (cl.subtasks.map (finalizeCell heap f)) with
    | none => simp [finalizeCell, hcl, hsubs] at h
    | some subs =>
      simp only [finalizeCell, hcl, hsubs, Option.some.injEq] at h
      rw [← h]
      rfl

theorem cellTasks_append_heap {hs : List Cell} {a : Cell} : ∀ {cs : List Nat},
    (∀ x ∈ cs, x < hs.length) → cellTasks (hs ++ [a]) cs = cellTasks hs cs := by
  intro cs
  induction cs with
  | nil => intro _; rfl
  | cons x xs ih =>
    intro h
    have hx : x < hs.length := h x (by simp)
    obtain ⟨cl, hv⟩ : ∃ cl, hs[x]? = some cl := by
      rw [List.getElem?_eq_getElem hx]
      exact ⟨_, rfl⟩
    have hg : (hs ++ [a])[x]? = some cl := by
      rw [List.getElem?_append, if_pos hx]
      exact hv
    rw [cellTasks_cons_some hg, cellTasks_cons_some hv,
      ih (fun y hy => h y (by simp [hy]))]

/-- Reading every heap position back out recovers the records. -/
theorem cellTasks_range (heap : List Cell) :
    cellTasks heap (List.range heap.length) = heap.map Cell.task := by
  induction heap using List.reverseRecOn with
  | nil => rfl
  | append_singleton hs a ih =>
    have hlen : (hs ++ [a]).length = hs.length + 1 := by simp
    rw [hlen, List.range_succ, cellTasks_append]
    have h1 : cellTasks (hs ++ [a]) (List.range hs.length)
        = cellTasks hs (List.range hs.length) :=
      cellTasks_append_heap (fun x hx => List.mem_range.mp hx)
    have h2 : cellTasks (hs ++ [a]) [hs.length] = [a.task] := by
      have hg : (hs ++ [a])[hs.length]? = some a := List.getElem?_concat_length hs a
      rw [cellTasks_cons_some hg]
      rfl
    rw [h1, ih, h2, List.map_append]
    rfl

/-- At a halted state with an empty queue, the table values enumerate
the whole heap. -/
theorem vals_perm_range {tasks : List Task} {s : BState} (hInv : Inv tasks s)
    (hD : InvD s) (hq : s.queue = []) :
    (s.table.map (·.2)).Perm (List.range s.heap.length) := by
  rw [List.perm_ext_iff_of_nodup hInv.vals_nd (List.nodup_range _)]
  intro i
  rw [List.mem_range]
  constructor
  · intro h
    obtain ⟨e, he, hev⟩ := List.mem_map.mp h
    rw [← hev]
    exact hInv.tv_lt e he
  · intro h
    rcases hD.cover i h with hq2 | ht
    · rw [hq] at hq2
      cases hq2
    · exact ht

theorem optList_map_ghost (heap : List Cell) (fuel : Nat) :
    ∀ gf : List CTree, (∀ t ∈ gf, GhostOK heap t) →
      (∀ t ∈ gf, ∃ tr, finalizeCell heap fuel t.rootIdx = some tr) →
      ∃ forest, optList ((gf.map CTree.rootIdx).map (finalizeCell heap fuel))
          = some forest ∧
        treeTasksF forest = cellTasks heap (flattenF gf) ∧
        ∀ tr ∈ forest, ∃ t ∈ gf, finalizeCell heap fuel t.rootIdx = some tr := by
  intro gf
  induction gf with
  | nil =>
    intro _ _
    refine ⟨[], rfl, rfl, ?_⟩
    intro tr h
    cases h
  | cons t ts ih =>
    intro hok hsome
    obtain ⟨tr, htr⟩ := hsome t (by simp)
    obtain ⟨forest, hfor, htasks, hmemrel⟩ :=
      ih (fun u hu => hok u (by simp [hu])) (fun u hu => hsome u (by simp [hu]))
    refine ⟨tr :: forest, ?_, ?_, ?_⟩
    · simp only [List.map_cons, optList, htr, hfor, Option.map_some']
    · show treeTasks tr ++ treeTasksF forest
        = cellTasks heap (flattenCT t ++ flattenF ts)
      rw [cellTasks_append, htasks, finalize_ghost_eq (hok t (by simp)) fuel tr htr]
    · intro tr2 htr2
      rcases List.mem_cons.mp htr2 with rfl | h
      · exact ⟨t, by simp, htr⟩
      · obtain ⟨u, hu, hfin⟩ := hmemrel tr2 h
        exact ⟨u, by simp [hu], hfin⟩

/-- At a halted state with an empty queue (distinct identifiers), the
final collection succeeds, its records are the input records exactly
once each, and every root record has no declared parent. -/
theorem collect_at_halt {tasks : List Task} {s : BState} (hInv : Inv tasks s)
    (hD : InvD s) (hq : s.queue = []) :
    ∃ forest, collectForestFrom s.heap s.table (s.heap.length + 1) = some forest ∧
      (treeTasksF forest).Perm tasks ∧
      ∀ tr ∈ forest, tr.task.parent_id = none := by
  obtain ⟨gf, hperm, hroots, hok⟩ := hD.ghost
  have hvr := vals_perm_range hInv hD hq
  have hfr : (flattenF gf).Perm (List.range s.heap.length) := hperm.trans hvr
  have hlenf : (flattenF gf).length = s.heap.length := by
    have := hfr.length_eq
    simpa using this
  have hfuel : ∀ t ∈ gf, heightCT t ≤ s.heap.length + 1 := by
    intro t ht
    have h1 := heightCT_le_flatten t
    have h2 := flattenCT_length_le ht
    omega
  have hsome : ∀ t ∈ gf,
      ∃ tr, finalizeCell s.heap (s.heap.length + 1) t.rootIdx = some tr :=
    fun t ht => finalize_ghost_some (hok t ht) _ (hfuel t ht)
  obtain ⟨forest, hfor, htasks, hmemrel⟩ :=
    optList_map_ghost s.heap (s.heap.length + 1) gf hok hsome
  refine ⟨forest, ?_, ?_, ?_⟩
  · show optList (((s.table.map (·.2)).filter (isRootCell s.heap)).map
      (finalizeCell s.heap (s.heap.length + 1))) = some forest
    have hri : (s.table.map (·.2)).filter (isRootCell s.heap)
        = gf.map CTree.rootIdx := hroots.symm
    rw [hri]
    exact hfor
  · rw [htasks]
    have h1 : (cellTasks s.heap (flattenF gf)).Perm
        (cellTasks s.heap (List.range s.heap.length)) := hfr.filterMap _
    have h2 : cellTasks s.heap (List.range s.heap.length) = tasks := by
      rw [cellTasks_range, hInv.heap_tasks]
    rw [h2] at h1
    exact h1
  · intro tr htr
    obtain ⟨t, ht, hfin⟩ := hmemrel tr htr
    have hri : t.rootIdx ∈ rootIdxs s.heap s.table := by
      rw [← hroots]
      exact List.mem_map.mpr ⟨t, ht, rfl⟩
    have hmemv : t.rootIdx ∈ s.table.map (·.2) := List.mem_of_mem_filter hri
    have hroot : isRootCell s.heap t.rootIdx = true := List.of_mem_filter hri
    obtain ⟨e, he, hev⟩ := List.mem_map.mp hmemv
    have helt : e.2 < s.heap.length := hInv.tv_lt e he
    obtain ⟨cl, hcl⟩ : ∃ cl, s.heap[e.2]? = some cl := by
      rw [List.getElem?_eq_getElem helt]
      exact ⟨_, rfl⟩
    have hclr : s.heap[t.rootIdx]? = some cl := by
      rw [← hev]
      exact hcl
    have hpn : cl.parent = none := by
      simp only [isRootCell, hclr] at hroot
      exact Option.isNone_iff_eq_none.mp hroot
    have hpidn : cl.task.parent_id = none := hInv.tv_root e cl he hcl hpn
    rw [finalize_task hfin hclr]
    exact hpidn

/-- Distinct identifiers plus full resolvability force the success
branch of `from_tasks`, with the input records recovered exactly. -/
theorem from_tasks_success {tasks : List Task} (hdid : (tasks.map (·.id)).Nodup)
    (hres : ∀ t ∈ tasks, rooted tasks t = true) :
    ∃ forest, from_tasks tasks = .ok forest ∧ (treeTasksF forest).Perm tasks ∧
      ∀ tr ∈ forest, tr.task.parent_id = none := by
  obtain ⟨s2, hrun, hg, hInv, hD⟩ := from_tasks_run2 tasks hdid
  have hq : s2.queue = [] := by
    by_contra hne
    have hcnt := queue_len_count hInv hg
    have hzero : (tasks.filter (fun t => !(rooted tasks t))).length = 0 := by
      rw [List.length_eq_zero]
      apply List.filter_eq_nil_iff.mpr
      intro t ht
      simp [hres t ht]
    rw [hzero] at hcnt
    exact hne (List.length_eq_zero.mp hcnt)
  obtain ⟨forest, hcol, hperm, hroots⟩ := collect_at_halt hInv hD hq
  have hemp : s2.queue.isEmpty = true := by simp [hq]
  refine ⟨forest, ?_, hperm, hroots⟩
  simp only [from_tasks, hrun, hemp, if_true, hcol]

theorem mem_inserts {α : Type} (a : α) : ∀ (l1 l2 : List α),
    (l1 ++ a :: l2) ∈ inserts a (l1 ++ l2) := by
  intro l1
  induction l1 with
  | nil =>
    intro l2
    cases l2 with
    | nil => simp [inserts]
    | cons b bs => simp [inserts]
  | cons b bs ih =>
    intro l2
    show (b :: (bs ++ a :: l2)) ∈ inserts a (b :: (bs ++ l2))
    simp only [inserts, List.mem_cons]
    right
    exact List.mem_map.mpr ⟨bs ++ a :: l2, ih l2, rfl⟩

/-- `perms` is complete: it lists every permutation. -/
theorem mem_perms {α : Type} : ∀ {l0 l : List α}, l.Perm l0 → l ∈ perms l0 := by
  intro l0
  induction l0 with
  | nil =>
    intro l h
    rw [h.eq_nil]
    simp [perms]
  | cons a as ih =>
    intro l h
    have ha : a ∈ l := h.mem_iff.mpr (by simp)
    obtain ⟨l1, l2, rfl⟩ := List.append_of_mem ha
    have hmid : (l1 ++ a :: l2).Perm (a :: (l1 ++ l2)) := List.perm_middle
    have h2 : (l1 ++ l2).Perm as := (hmid.symm.trans h).cons_inv
    show l1 ++ a :: l2 ∈ perms (a :: as)
    apply List.mem_flatten.mpr
    exact ⟨inserts a (l1 ++ l2), List.mem_map.mpr ⟨l1 ++ l2, ih h2, rfl⟩,
      mem_inserts a l1 l2⟩

/-- C1: on every input with pairwise distinct identifiers whose records
all have resolvable parent chains, `from_tasks` returns `Ok` (whatever
the input order, which is universally quantified here); and every
permutation of the chain 1 ← 2 ← 3 ← 4 yields exactly one root, id 1,
carrying one nested chain of depth 4. -/
theorem claim1_success (tasks : List Task) (hdid : (tasks.map (·.id)).Nodup)
    (hres : ∀ t ∈ tasks, rooted tasks t = true) :
    (∃ forest, from_tasks tasks = .ok forest) ∧
    (∀ l, l.Perm chainTasks → chainCheck (from_tasks l) = true) := by
  constructor
  · obtain ⟨forest, hok, _, _⟩ := from_tasks_success hdid hres
    exact ⟨forest, hok⟩
  · intro l hl
    have hmem : l ∈ perms chainTasks := mem_perms hl
    have hAll : ∀ l2 ∈ perms chainTasks, chainCheck (from_tasks l2) = true := by
      decide
    exact hAll l hmem

theorem claim1_success_witness :
    (∃ forest, from_tasks chainTasks = .ok forest) ∧
    (∀ l, l.Perm chainTasks → chainCheck (from_tasks l) = true) :=
  claim1_success chainTasks (by decide) (by decide)

/-- C6: on success with pairwise distinct identifiers, every input
identifier appears in the returned forest exactly once, and the record
at the root of every tree has no declared parent. -/
theorem claim6_ids_once (tasks : List Task) (forest : List TaskTree)
    (hdid : (tasks.map (·.id)).Nodup) (hok : from_tasks tasks = .ok forest) :
    (∀ t ∈ tasks, ((treeTasksF forest).map (·.id)).count t.id = 1) ∧
    ∀ tr ∈ forest, tr.task.parent_id = none := by
  obtain ⟨s2, hrun, hg, hInv, hD⟩ := from_tasks_run2 tasks hdid
  by_cases hq : s2.queue = []
  · obtain ⟨forest2, hcol, hperm, hroots⟩ := collect_at_halt hInv hD hq
    have hemp : s2.queue.isEmpty = true := by simp [hq]
    have heq : from_tasks tasks = .ok forest2 := by
      simp only [from_tasks, hrun, hemp, if_true, hcol]
    rw [hok] at heq
    injection heq with hf
    subst hf
    refine ⟨?_, hroots⟩
    intro t ht
    have hcount : ((treeTasksF forest).map (·.id)).count t.id
        = (tasks.map (·.id)).count t.id := (hperm.map (·.id)).count_eq t.id
    rw [hcount]
    exact List.count_eq_one_of_mem hdid (List.mem_map.mpr ⟨t, ht, rfl⟩)
  · have herr := from_tasks_error_eq hrun hq
    rw [hok] at herr
    cases herr

theorem claim6_ids_once_witness :
    (∀ t ∈ [mkTask 5 none],
      ((treeTasksF [TaskTree.mk (mkTask 5 none) []]).map (·.id)).count t.id = 1) ∧
    ∀ tr ∈ [TaskTree.mk (mkTask 5 none) []], tr.task.parent_id = none :=
  claim6_ids_once [mkTask 5 none] [TaskTree.mk (mkTask 5 none) []] (by decide) (by rfl)

/-- C10: on inputs with pairwise distinct identifiers `from_tasks`
never reaches a modelled panic (queue pop and parent unwrap run on the
right shapes, the two mutated cells of an attach differ, and
finalization succeeds); moreover at the loop's halt every cell is held
as a child at most once, and a cell still marked root is held by no
parent at all — the single-strong-reference discipline `Rc::try_unwrap`
needs. -/
theorem claim10_no_panic (tasks : List Task) (hdid : (tasks.map (·.id)).Nodup) :
    from_tasks tasks ≠ BuildResult.crash ∧
    ∀ s2, runLoop (loopFuel (initState tasks)) (initState tasks) = some s2 →
      ∀ (i : Nat) (cell : Cell), s2.heap[i]? = some cell →
        countChild s2.heap i ≤ 1 ∧ (cell.parent = none → countChild s2.heap i = 0) := by
  obtain ⟨s2, hrun, hg, hInv, hD⟩ := from_tasks_run2 tasks hdid
  constructor
  · by_cases hq : s2.queue = []
    · obtain ⟨forest, hcol, _, _⟩ := collect_at_halt hInv hD hq
      have hemp : s2.queue.isEmpty = true := by simp [hq]
      simp only [from_tasks, hrun, hemp, if_true, hcol]
      intro h
      cases h
    · rw [from_tasks_error_eq hrun hq]
      intro h
      cases h
  · intro s3 hrun3 i cell hcell
    rw [hrun, Option.some.injEq] at hrun3
    subst hrun3
    obtain ⟨hiff, hle⟩ := hInv.flag_count i cell hcell
    refine ⟨hle, ?_⟩
    intro hpn
    by_contra hnz
    have h1 : countChild s2.heap i = 1 := by omega
    have hsome := hiff.mpr h1
    rw [hpn] at hsome
    cases hsome

theorem claim10_no_panic_witness :
    from_tasks [mkTask 1 none, mkTask 2 (some 1)] ≠ BuildResult.crash ∧
    ∀ s2, runLoop (loopFuel (initState [mkTask 1 none, mkTask 2 (some 1)]))
        (initState [mkTask 1 none, mkTask 2 (some 1)]) = some s2 →
      ∀ (i : Nat) (cell : Cell), s2.heap[i]? = some cell →
        countChild s2.heap i ≤ 1 ∧ (cell.parent = none → countChild s2.heap i = 0) :=
  claim10_no_panic [mkTask 1 none, mkTask 2 (some 1)] (by decide)

end Doist
